import Mathlib

/-!
Verification of the demo-recording tooling in `docs/demos/shared/`
(`lib.py` and `validation.py`).

Strings are modelled as `List Char` (`Str`), so that Python's slicing,
searching and replacement operations become structural list functions.
Filesystem contents are modelled as association lists from path strings to
file contents; subprocess results (ffmpeg, tesseract, vhs) are modelled as
oracle parameters, since the Python code only observes their return code and
output files.
-/

/-- Strings are modelled as lists of characters. -/
abbrev Str := List Char

/-- The literal left-brace character, as used by the `\x7b\x7bVAR\x7d\x7d` template tokens. -/
def lbrace : Char := '\x7b'

/-- The literal right-brace character. -/
def rbrace : Char := '\x7d'

/-- ASCII whitespace, the model of Python's `str.strip` character class and of
the regex class `\s` for the ASCII text these scripts process. -/
def isPySpace (c : Char) : Bool :=
  c == ' ' || c == '\t' || c == '\n' || c == '\x0b' || c == '\x0c' || c == '\r'

/-- Model of Python `str.strip()`: remove leading and trailing whitespace. -/
def stripWS (s : Str) : Str :=
  ((s.dropWhile isPySpace).reverse.dropWhile isPySpace).reverse

/-- Model of Python `str.strip('"')`: remove leading and trailing double quotes. -/
def stripQuotes (s : Str) : Str :=
  ((s.dropWhile (· == '"')).reverse.dropWhile (· == '"')).reverse

/-- Model of Python `str.lower()` for the ASCII range (the checkpoint patterns
and OCR text handled by `validation.py` are ASCII). -/
def lowerChar (c : Char) : Char :=
  if 'A' ≤ c ∧ c ≤ 'Z' then Char.ofNat (c.toNat + 32) else c

/-- Lowercase every character of a string, modelling `text.lower()`. -/
def lowerStr (s : Str) : Str := s.map lowerChar

/-- Split a string on a separator character; the model of Python
`str.split("\n")` when applied with the newline character. -/
def splitOnChar (c : Char) : Str → List Str
  | [] => [[]]
  | a :: t =>
    let r := splitOnChar c t
    if a = c then [] :: r
    else
      match r with
      | [] => [[a]]
      | h :: t' => (a :: h) :: t'

/-- Split into lines at newline characters, as `rendered.split("\n")` does. -/
def splitLines (s : Str) : List Str := splitOnChar '\n' s

/-- Join strings with newline separators, inverse of `splitLines`. -/
def joinLines (ls : List Str) : Str := (ls.intersperse ['\n']).flatten

/-- The template token `\x7b\x7bKEY\x7d\x7d` built from a key, as produced by the
f-string `f"\x7b\x7b\x7b\x7b\x7bkey\x7d\x7d\x7d\x7d\x7d"` in `render_tape`. -/
def token (key : Str) : Str := lbrace :: lbrace :: (key ++ [rbrace, rbrace])

/-- Model of Python `str.replace(pat, rep)` for a nonempty pattern: scan left to
right, replacing each non-overlapping occurrence of `pat` by `rep` and resuming
after the replaced occurrence.  (`render_tape` only ever replaces the nonempty
patterns `token key`; for an empty pattern this model returns the string
unchanged, where Python would intersperse `rep`.) -/
def replaceLAux (pat rep : Str) : Nat → Str → Str
  | 0, s => s
  | _ + 1, [] => []
  | fuel + 1, c :: t =>
    if pat ≠ [] ∧ pat <+: (c :: t) then
      rep ++ replaceLAux pat rep fuel ((c :: t).drop pat.length)
    else
      c :: replaceLAux pat rep fuel t

/-- Replace every non-overlapping occurrence of `pat`, resuming the scan after
each replaced occurrence; the fuel `s.length` always suffices because each
step consumes at least one character of the scanned string. -/
def replaceL (pat rep s : Str) : Str := replaceLAux pat rep s.length s

/-- Sequential template-variable substitution: for each `(key, value)` pair in
dictionary (insertion) order, replace every occurrence of `token key` by
`value`, as the loop `for key, value in replacements.items(): rendered =
rendered.replace(f"...", str(value))` does. -/
def substTokens (repls : List (Str × Str)) (s : Str) : Str :=
  repls.foldl (fun acc kv => replaceL (token kv.1) kv.2 acc) s

/-- One attempt of the pattern `Source\s+(.+)` (with `$` anchoring) of
`re.sub(r"^Source\s+(.+)$", inline_source, rendered, flags=re.MULTILINE)` at a
position where `^` holds.  `\s+` is greedy and — unlike `.` — matches
newlines, so when the text after `Source` begins with whitespace running past
the end of the line, the match continues into later lines, and `(.+)` captures
from the first non-whitespace character to the end of that character's line.
When the whole remaining text after `Source` is whitespace, the greedy `\s+`
backs off so that `(.+)` captures the last character of the last line that
holds a non-newline character, provided at least one whitespace character is
left for `\s+`.  Returns the raw captured group together with the text
remaining after the match. -/
def sourceMatchAt (s : Str) : Option (Str × Str) :=
  if s.take 6 = "Source".toList then
    let r := s.drop 6
    let w := r.takeWhile isPySpace
    if w.length = 0 then none
    else
      let rem := r.drop w.length
      if rem ≠ [] then
        let g := rem.takeWhile (· ≠ '\n')
        some (g, rem.drop g.length)
      else
        match (w.reverse.findIdx? (fun c => !(c == '\n'))).map
            (fun j => w.length - 1 - j) with
        | some k =>
          if 1 ≤ k then some ([w.getD k ' '], w.drop (k + 1)) else none
        | none => none
  else none

def sourceSubAux (fs : List (Str × Str)) : Nat → Bool → Str → Except Str Str
  | 0, _, s => .ok s
  | _ + 1, _, [] => .ok []
  | fuel + 1, atLineStart, c :: t =>
    match (if atLineStart then sourceMatchAt (c :: t) else none) with
    | some (g, remainder) =>
      match fs.lookup (stripQuotes (stripWS g)) with
      | none => .error (stripQuotes (stripWS g))
      | some content =>
        (sourceSubAux fs fuel false remainder).map (fun rest => content ++ rest)
    | none =>
      (sourceSubAux fs fuel (decide (c = '\n')) t).map (fun rest => c :: rest)

/-- The full `re.sub(r"^Source\s+(.+)$", inline_source, rendered,
flags=re.MULTILINE)` pass of `render_tape`: scan the text left to right,
attempting the pattern at every line start (`^` under `MULTILINE`); each match
is replaced by the contents of the file at the captured path (stripped of
surrounding whitespace and double quotes), a missing file raising
(`Except.error`); scanning resumes after the match, whose last character is
never a newline, and inlined content is not rescanned.  The fuel `s.length`
always suffices because every step consumes at least one character. -/
def sourceSub (fs : List (Str × Str)) (s : Str) : Except Str Str :=
  sourceSubAux fs s.length true s

/-- Line-local reading of the `Source` directive, following the
specification's wording (a "line of the form `Source <path>`"): the pattern
matched against one line in isolation, the group stripped by
`match.group(1).strip().strip('"')`.  This coincides with an actual regex
match exactly when the path sits on the same line as `Source`; the regex
itself (`sourceMatchAt`) can also consume following lines through `\s+`. -/
def sourceArg (line : Str) : Option Str :=
  if line.take 6 = "Source".toList then
    let rest := line.drop 6
    let w := rest.takeWhile isPySpace
    if w.length = 0 then none
    else if rest.length ≤ w.length then
      -- the rest of the line is all whitespace: `.+` backtracks to take one char
      if 2 ≤ rest.length then some (stripQuotes (stripWS (rest.drop (rest.length - 1))))
      else none
    else some (stripQuotes (stripWS (rest.drop w.length)))
  else none

/-- Line-by-line inlining of `Source` directives, the formulation used by the
specification's description of `render_tape`: each line matching the
(line-local) pattern is replaced by the contents of the referenced file, a
missing file raising, modelled as `Except.error` carrying the path.  The
filesystem is an association list from repo-root-relative paths to contents. -/
def inlineLinesGo (fs : List (Str × Str)) : List Str → Except Str (List Str)
  | [] => .ok []
  | l :: rest =>
    match sourceArg l with
    | some p =>
      match fs.lookup p with
      | none => .error p
      | some content => (inlineLinesGo fs rest).map (fun r => content :: r)
    | none => (inlineLinesGo fs rest).map (fun r => l :: r)

/-- Line-by-line Source inlining of a whole rendered template, joining the
lines back with newlines; agrees with the real pass `sourceSub` exactly when
no `Source` line has its path on a later line. -/
def inlineSources (fs : List (Str × Str)) (s : Str) : Except Str Str :=
  (inlineLinesGo fs (splitLines s)).map joinLines

/-- Possible outcomes of `render_tape`: the template file does not exist (the
function prints a warning and returns `None`), a `Source` directive references
a missing file (`read_text` raises `FileNotFoundError`), or rendering
succeeds with the resulting text. -/
inductive RenderResult where
  | missingTemplate : RenderResult
  | sourceError : Str → RenderResult
  | rendered : Str → RenderResult
deriving DecidableEq, Repr

/-- Whether a `render_tape` outcome is a raised exception (as opposed to a
normal return of `None` or of the rendered text). -/
def renderRaises : RenderResult → Bool
  | .sourceError _ => true
  | _ => false

/-- Model of `render_tape(template_path, replacements, repo_root)`.  The
`template` argument is the content of the template file if it exists
(`template_path.exists()` / `read_text()`), `fs` maps the repo-root-relative
paths of `Source` directives to file contents, and `repls` is the replacements
dictionary as a key-value list in insertion order.  The code first runs the
`MULTILINE` regex pass inlining `Source` directives (`sourceSub`) and only
afterwards applies the `\x7b\x7bVAR\x7d\x7d` substitutions. -/
def renderTape (template : Option Str) (fs : List (Str × Str))
    (repls : List (Str × Str)) : RenderResult :=
  match template with
  | none => .missingTemplate
  | some s =>
    match sourceSub fs s with
    | .error p => .sourceError p
    | .ok inlined => .rendered (substTokens repls inlined)

/-- Formulation of `render_tape` following the specification's wording: every
line of the form `Source <path>` is replaced by the contents of the file at
that path (surrounding whitespace and double quotes stripped), via a single
`mapM` pass over the lines; only afterwards are the `\x7b\x7bVAR\x7d\x7d` tokens
replaced by literal string replacement, one key after the other.  This
line-local description diverges from the program when a `Source` line carries
no path on its own line, since `\s+` then consumes the following line. -/
def renderTapeSpec (template : Option Str) (fs : List (Str × Str))
    (repls : List (Str × Str)) : RenderResult :=
  match template with
  | none => .missingTemplate
  | some s =>
    match (splitLines s).mapM (fun l =>
        match sourceArg l with
        | some p => (fs.lookup p).elim (Except.error p) Except.ok
        | none => Except.ok l) with
    | .error p => .sourceError p
    | .ok ls => .rendered (substTokens repls (joinLines ls))

/-- Shorthand turning a Lean string literal into the `Str` model. -/
def lit (s : String) : Str := s.toList

/-- The ASCII apostrophe used by the error-message f-strings of
`validate_checkpoint`. -/
def quoteChar : Char := '\x27'

/-- Decimal rendering of a natural number, as Python's f-string interpolation
of an `int` produces it. -/
def digitChar : Nat → Char
  | 0 => '0' | 1 => '1' | 2 => '2' | 3 => '3' | 4 => '4'
  | 5 => '5' | 6 => '6' | 7 => '7' | 8 => '8' | _ => '9'

def natStrAux : Nat → Nat → Str
  | 0, n => [digitChar n]
  | fuel + 1, n =>
    if n < 10 then [digitChar n]
    else natStrAux fuel (n / 10) ++ [digitChar (n % 10)]

/-- Decimal digit string of a natural number; the fuel `n` always suffices
because the recursion divides by ten at every step. -/
def natStr (n : Nat) : Str := natStrAux n n

/-- Error message `f"Failed to extract frame \x7bframe_number\x7d"`. -/
def extractFailMsg (n : Nat) : Str := lit "Failed to extract frame " ++ natStr n

/-- Error message `f"OCR failed for frame \x7bframe_number\x7d"`. -/
def ocrFailMsg (n : Nat) : Str := lit "OCR failed for frame " ++ natStr n

/-- Error message `f"Expected pattern not found: '\x7bpattern\x7d'"`. -/
def expectedMsg (p : Str) : Str :=
  lit "Expected pattern not found: " ++ quoteChar :: (p ++ [quoteChar])

/-- Error message `f"Forbidden pattern found: '\x7bpattern\x7d'"`. -/
def forbiddenMsg (p : Str) : Str :=
  lit "Forbidden pattern found: " ++ quoteChar :: (p ++ [quoteChar])

/-- The containment check of `validate_checkpoint`: `pattern.lower() in
text_lower`, where `text_lower = text.lower()`. -/
def present (text pat : Str) : Bool := decide (lowerStr pat <:+: lowerStr text)

/-- Model of `validate_checkpoint(gif_path, frame_number, expected, forbidden,
work_dir)`.  The external tools are oracles: `extractOk frame` is whether
`extract_frame` succeeded (return code zero and the frame file written), and
`ocr frame` is the text `ocr_image` returned for that frame (the empty string
models OCR failure, which `ocr_image` signals by returning `""`).  The two
`for` loops append one message per failing pattern to the `errors` list. -/
def validateCheckpoint (extractOk : Nat → Bool) (ocr : Nat → Str)
    (frame : Nat) (expected forbidden : List Str) : List Str :=
  if !extractOk frame then [extractFailMsg frame]
  else
    let text := ocr frame
    if text = [] then [ocrFailMsg frame]
    else
      let errs1 := expected.foldl
        (fun acc p => if !present text p then acc ++ [expectedMsg p] else acc) []
      forbidden.foldl
        (fun acc p => if present text p then acc ++ [forbiddenMsg p] else acc) errs1

/-- The checkpoint table `TUI_CHECKPOINTS`, with its single demo entry. -/
def TUI_CHECKPOINTS : List (Str × List (Nat × List Str × List Str)) :=
  [(lit "wt-zellij-omnibus",
    [(200, [lit "Opus", lit "acme", lit "Add a test"],
           [lit "command not found", lit "Unknown command"]),
     (1750, [lit "Branch", lit "main", lit "billing"],
            [lit "CONFLICT", lit "error:", lit "failed"])])]

/-- Per-frame summary line `f"Frame \x7bframe_number\x7d: \x7b'; '.join(errors)\x7d"` appended
by `validate_tui_demo` when a checkpoint fails. -/
def frameErrMsg (n : Nat) (errs : List Str) : Str :=
  lit "Frame " ++ natStr n ++ lit ": " ++ (errs.intersperse (lit "; ")).flatten

/-- Model of `validate_tui_demo(demo_name, gif_path)`.  `gifExists` models
`gif_path.exists()`, `missingTools` the result of `check_dependencies()`, and
`extractOk`/`ocr` the frame-extraction and OCR oracles as in
`validateCheckpoint`.  All checkpoints are visited in order; each failing one
contributes one summary entry to the returned error list. -/
def validateTuiDemo (extractOk : Nat → Bool) (ocr : Nat → Str)
    (demo gifPath : Str) (gifExists : Bool) (missingTools : List Str) : List Str :=
  match TUI_CHECKPOINTS.lookup demo with
  | none => [lit "No checkpoints defined for demo: " ++ demo]
  | some checkpoints =>
    if !gifExists then [lit "GIF not found: " ++ gifPath]
    else if missingTools ≠ [] then
      [lit "Missing required tools: " ++ (missingTools.intersperse (lit ", ")).flatten]
    else
      checkpoints.foldl (fun acc cp =>
        let errs := validateCheckpoint extractOk ocr cp.1 cp.2.1 cp.2.2
        if errs ≠ [] then acc ++ [frameErrMsg cp.1 errs] else acc) []

/-- Model of `validate_tui_demo_verbose(demo_name, gif_path)`, which returns a
`(success, output_message)` pair.  The message accumulates one line per
checkpoint plus a final summary; early failures return only the error text. -/
def validateTuiDemoVerbose (extractOk : Nat → Bool) (ocr : Nat → Str)
    (demo gifPath : Str) (gifExists : Bool) (missingTools : List Str) : Bool × Str :=
  let lines0 : List Str := [lit "Validating " ++ demo ++ lit ": " ++ gifPath]
  match TUI_CHECKPOINTS.lookup demo with
  | none => (false, lit "No checkpoints defined for demo: " ++ demo)
  | some checkpoints =>
    if !gifExists then (false, lit "GIF not found: " ++ gifPath)
    else if missingTools ≠ [] then
      (false, lit "Missing required tools: " ++ (missingTools.intersperse (lit ", ")).flatten)
    else
      let step := checkpoints.foldl (fun (st : Bool × List Str) cp =>
        let errs := validateCheckpoint extractOk ocr cp.1 cp.2.1 cp.2.2
        if errs ≠ [] then
          (false,
           st.2 ++ [lit "  ✗ Frame " ++ natStr cp.1]
                ++ errs.map (fun e => lit "    - " ++ e))
        else (st.1, st.2 ++ [lit "  ✓ Frame " ++ natStr cp.1])) (true, lines0)
      let final := step.2 ++
        [if step.1 then lit "✓ All checkpoints passed" else lit "✗ Some checkpoints failed"]
      (step.1, joinLines final)

/-- Quote characters accepted by the command regex of
`extract_commands_from_tape` (double or single quote, from `["\']`). -/
def isQuoteChar (c : Char) : Bool := c == '"' || c == quoteChar

/-- Parse the regex `re.match(r'Type\s+["\'](.+)["\']', line)`: the literal
`Type`, at least one whitespace character (greedy), an opening quote of either
kind, then the greedy group `(.+)` followed by a quote of either kind — so the
group extends to just before the last quote character of the line, which must
lie at least one character after the opening quote.  `re.match` anchors at the
start only, so trailing characters are allowed. -/
def parseTypeCmd (s : Str) : Option Str :=
  if s.take 4 = lit "Type" then
    let rest := s.drop 4
    let w := rest.takeWhile isPySpace
    if w.length = 0 then none
    else
      match rest.drop w.length with
      | [] => none
      | q :: r1 =>
        if isQuoteChar q then
          match r1.reverse.findIdx? isQuoteChar with
          | none => none
          | some j =>
            let m := r1.length - 1 - j
            if 1 ≤ m then some (r1.take m) else none
        else none
  else none

/-- The combined guard of the scanner: `line.startswith("Type ")` and a match
of the command regex. -/
def typeCmd (s : Str) : Option Str :=
  if s.take 5 = lit "Type " then parseTypeCmd s else none

/-- The lookahead of `extract_commands_from_tape`: starting after the `Type`
line, skip blank lines and lines starting with `Sleep `, and test whether the
first other line is exactly `Enter` (each line stripped first). -/
def nextIsEnter : List Str → Bool
  | [] => false
  | l :: rest =>
    let s := stripWS l
    if s = [] then nextIsEnter rest
    else if s.take 6 = lit "Sleep " then nextIsEnter rest
    else decide (s = lit "Enter")

/-- Visibility-flag update of the scanner: a stripped line equal to `Show`
turns the flag on, `Hide` turns it off, anything else leaves it. -/
def updateVis (v : Bool) (s : Str) : Bool :=
  if s = lit "Show" then true else if s = lit "Hide" then false else v

/-- The `while i < len(lines)` loop of `extract_commands_from_tape`: walk the
lines carrying the visibility flag; on a visible line matching the `Type`
pattern whose lookahead finds `Enter`, append the command when it starts with
one of the prefixes. -/
def scanCommands (prefixes : List Str) : Bool → List Str → List Str
  | _, [] => []
  | v, l :: rest =>
    let s := stripWS l
    let v' := updateVis v s
    let tail := scanCommands prefixes v' rest
    match if v' then typeCmd s else none with
    | some cmd =>
      if nextIsEnter rest && prefixes.any (fun p => p.isPrefixOf cmd) then
        cmd :: tail
      else tail
    | none => tail

/-- Default `command_prefixes` argument of `extract_commands_from_tape`. -/
def defaultCommandPrefixes : List Str := [lit "wt", lit "git"]

/-- Model of `extract_commands_from_tape(tape_path, repo_root,
command_prefixes)`: render the tape with an empty replacements dictionary (a
missing template or an empty rendering yields `[]`, a missing `Source` file
propagates the exception), then scan the lines with the visibility flag
initially off. -/
def extractCommandsFromTape (template : Option Str) (fs : List (Str × Str))
    (prefixes : List Str := defaultCommandPrefixes) : Except Str (List Str) :=
  match renderTape template fs [] with
  | .missingTemplate => .ok []
  | .sourceError p => .error p
  | .rendered s =>
    if s = [] then .ok []
    else .ok (scanCommands prefixes false (splitLines s))

/-- Visibility flag after processing a list of lines, starting from `v0`. -/
def visAfter (v0 : Bool) (ls : List Str) : Bool :=
  ls.foldl (fun v l => updateVis v (stripWS l)) v0

/-- Per-line characterisation of the scanner, following the specification's
wording: the result collects, in order of line index `i`, exactly the commands
of lines matching the `Type` pattern for which the visibility flag (folded
over the lines up to and including `i`) is on, the lookahead over the lines
after `i` finds `Enter`, and the command starts with one of the prefixes. -/
def specExtract (prefixes : List Str) (v0 : Bool) (lines : List Str) : List Str :=
  (List.range lines.length).filterMap (fun i =>
    let s := stripWS (lines.getD i [])
    match if visAfter v0 (lines.take (i + 1)) then typeCmd s else none with
    | some cmd =>
      if nextIsEnter (lines.drop (i + 1)) && prefixes.any (fun p => p.isPrefixOf cmd)
      then some cmd else none
    | none => none)

/-- Model of a `pathlib.Path` at the final-component level: the directory part,
the stem of the final component, and its last suffix (extension).  In pathlib a
suffix is either empty or starts with a dot followed by dot-free text;
`with_suffix` swaps exactly this last component. -/
structure PyPath where
  dir : Str
  stem : Str
  ext : Str
deriving DecidableEq

/-- The pathlib invariant on a real path's last suffix: it is empty, or starts
with a dot and contains no further dot. -/
def validSuffix (e : Str) : Prop :=
  e = [] ∨ (e.head? = some '.' ∧ '.' ∉ e.tail)

/-- Model of `Path.with_suffix`: replace the last suffix of the final
component. -/
def withSuffix (p : PyPath) (e : Str) : PyPath := { p with ext := e }

/-- The process-unique temporary download path
`dest.with_suffix(f".\x7bos.getpid()\x7d.tmp")` used by `_download_file`. -/
def tempPathOf (dest : PyPath) (pid : Nat) : PyPath :=
  withSuffix dest ('.' :: (natStr pid ++ lit ".tmp"))

/-- Filesystems for the download model: a content assignment per path. -/
def FsState := PyPath → Option Str

/-- Write (create or overwrite) a file. -/
def fsWrite (fs : FsState) (p : PyPath) (content : Str) : FsState :=
  fun q => if q = p then some content else fs q

/-- Remove a file if present (`unlink(missing_ok=True)`). -/
def fsUnlink (fs : FsState) (p : PyPath) : FsState :=
  fun q => if q = p then none else fs q

/-- Model of `_download_file(url, dest)` run by the process `pid`.  `fetch` is
the outcome of `urllib.request.urlretrieve`: `some data` on success (the data
written to the temp path), `none` when the download raises.  The temp file is
written first; the rename to `dest` happens only if `dest` does not exist at
that moment; the `finally` block unlinks the temp path in every case. -/
def downloadFile (fetch : Option Str) (dest : PyPath) (pid : Nat)
    (fs : FsState) : FsState :=
  let temp := tempPathOf dest pid
  match fetch with
  | none => fsUnlink fs temp
  | some data =>
    let fs1 := fsWrite fs temp data
    let fs2 :=
      if (fs1 dest).isNone then fsUnlink (fsWrite fs1 dest data) temp
      else fs1
    fsUnlink fs2 temp

/-- Model of `run(cmd, ...)` from `lib.py`, which calls `subprocess.run(...,
check=check, capture_output=capture)` and returns `result.stdout` when
capturing.  A nonzero return code with `check=True` raises
`CalledProcessError`, modelled as `Except.error` carrying the code. -/
def runCmd (returncode : Nat) (stdout : Str) (check : Bool := true)
    (capture : Bool := false) : Except Nat (Option Str) :=
  if check ∧ returncode ≠ 0 then .error returncode
  else .ok (if capture then some stdout else none)

/-- Parse the regex `^Output\s+"[^"]+"` at the start of a line: the literal
`Output`, at least one whitespace, a double-quoted nonempty quote-free body;
return the text after the closing quote.  This is a line-local idealization:
in Python `\s` and `[^"]` also match newlines, so the pattern can span lines
(e.g. `Output` alone on a line followed by a quoted path); only the text VHS
is run on — never any claim's error behaviour — depends on this value, and on
the well-formed single-line `Output "path"` directives of real tapes the
model is exact. -/
def parseOutputDirective (line : Str) : Option Str :=
  if line.take 6 = lit "Output" then
    let rest := line.drop 6
    let w := rest.takeWhile isPySpace
    if w.length = 0 then none
    else
      match rest.drop w.length with
      | [] => none
      | q :: r1 =>
        if q = '"' then
          let body := r1.takeWhile (· ≠ '"')
          if body.length = 0 then none
          else
            match r1.drop body.length with
            | [] => none
            | _ :: after => some after
        else none
  else none

/-- The substitution `re.sub(r'^Output\s+"[^"]+"', f'Output "...temp..."',
rendered, flags=re.MULTILINE)` on one line. -/
def outputSub (tempTxt : Str) (line : Str) : Str :=
  match parseOutputDirective line with
  | some after => lit "Output " ++ '"' :: (tempTxt ++ '"' :: after)
  | none => line

/-- One full-line substitution `re.sub(r"^Set Width .*$", "Set Width 120",
...)`. -/
def widthSub (line : Str) : Str :=
  if line.take 10 = lit "Set Width " then lit "Set Width 120" else line

/-- One full-line substitution `re.sub(r"^Set Height .*$", "Set Height 120",
...)`. -/
def heightSub (line : Str) : Str :=
  if line.take 11 = lit "Set Height " then lit "Set Height 120" else line

/-- Removal pass `re.sub(rf"^Set \x7bsetting\x7d .*$\n?", "", ...)` for one setting
name, acting on the line list: a matching line disappears together with its
newline; a matching final line (with no trailing newline to absorb) leaves an
empty final line behind. -/
def removeSettingLines (settingPrefix : Str) : List Str → List Str
  | [] => []
  | [l] => if l.take settingPrefix.length = settingPrefix then [[]] else [l]
  | l :: rest =>
    if l.take settingPrefix.length = settingPrefix then removeSettingLines settingPrefix rest
    else l :: removeSettingLines settingPrefix rest

/-- The text-output rewriting of `record_text`: redirect the `Output` line to
the temp text path, force `Set Width 120` and `Set Height 120`, and drop the
`FontSize`, `Theme` and `Padding` settings. -/
def textTransform (tempTxt : Str) (s : Str) : Str :=
  let ls := (splitLines s).map (outputSub tempTxt)
  let ls := ls.map widthSub
  let ls := ls.map heightSub
  let ls := removeSettingLines (lit "Set FontSize ") ls
  let ls := removeSettingLines (lit "Set Theme ") ls
  let ls := removeSettingLines (lit "Set Padding ") ls
  joinLines ls

/-- Possible outcomes of `record_text`: `RuntimeError` when the tape fails to
render (missing template, or empty rendering, since `if not rendered` also
catches `""`), a propagated `FileNotFoundError` from a `Source` directive, a
propagated `CalledProcessError` when VHS fails, `RuntimeError` when VHS
succeeds without creating the output file, or success carrying the rendered
tape text VHS was run on. -/
inductive RecordResult where
  | renderError : RecordResult
  | sourceMissing : Str → RecordResult
  | vhsFailed : Nat → RecordResult
  | outputMissing : RecordResult
  | ok : Str → RecordResult
deriving DecidableEq, Repr

/-- Model of `record_text(demo_env, tape_path, output_txt, replacements,
repo_root, vhs_binary)`.  `vhsExit` is the VHS return code (`run` is called
with `check=True`) and `vhsCreatedOutput` whether the temp text file exists
afterwards. -/
def recordText (template : Option Str) (fs : List (Str × Str))
    (repls : List (Str × Str)) (tempTxt : Str) (vhsExit : Nat)
    (vhsCreatedOutput : Bool) : RecordResult :=
  match renderTape template fs repls with
  | .missingTemplate => .renderError
  | .sourceError p => .sourceMissing p
  | .rendered s =>
    if s = [] then .renderError
    else
      let tape := textTransform tempTxt s
      if vhsExit ≠ 0 then .vhsFailed vhsExit
      else if !vhsCreatedOutput then .outputMissing
      else .ok tape

theorem foldl_append_filter {α : Type} (c : α → Bool) (f : α → Str) :
    ∀ (l : List α) (acc : List Str),
      l.foldl (fun a x => if c x then a ++ [f x] else a) acc
        = acc ++ (l.filter c).map f := by
  intro l
  induction l with
  | nil => simp
  | cons x t ih =>
    intro acc
    simp only [List.foldl_cons, List.filter_cons]
    cases hc : c x <;> simp [hc, ih, List.append_assoc]

/-- C1: when frame extraction succeeds and OCR returns non-empty text,
`validate_checkpoint` returns exactly one error message per expected pattern
not contained in the OCR text and one per forbidden pattern contained in it
(expected errors first, in pattern order), and the result is empty exactly
when every expected pattern is present and every forbidden pattern absent. -/
theorem validateCheckpoint_correct (extractOk : Nat → Bool) (ocr : Nat → Str)
    (frame : Nat) (expected forbidden : List Str)
    (hex : extractOk frame = true) (hocr : ocr frame ≠ []) :
    validateCheckpoint extractOk ocr frame expected forbidden
      = (expected.filter (fun p => !present (ocr frame) p)).map expectedMsg
        ++ (forbidden.filter (fun p => present (ocr frame) p)).map forbiddenMsg
    ∧ (validateCheckpoint extractOk ocr frame expected forbidden = []
        ↔ (∀ p ∈ expected, present (ocr frame) p = true)
          ∧ ∀ p ∈ forbidden, present (ocr frame) p = false) := by
  have heq : validateCheckpoint extractOk ocr frame expected forbidden
      = (expected.filter (fun p => !present (ocr frame) p)).map expectedMsg
        ++ (forbidden.filter (fun p => present (ocr frame) p)).map forbiddenMsg := by
    unfold validateCheckpoint
    rw [hex]
    simp only [Bool.not_true, Bool.false_eq_true, if_false, if_neg hocr]
    rw [foldl_append_filter, foldl_append_filter]
    simp
  refine ⟨heq, ?_⟩
  rw [heq]
  simp only [List.append_eq_nil, List.map_eq_nil_iff, List.filter_eq_nil_iff]
  constructor
  · rintro ⟨h1, h2⟩
    exact ⟨fun p hp => by simpa using h1 p hp, fun p hp => by simpa using h2 p hp⟩
  · rintro ⟨h1, h2⟩
    exact ⟨fun p hp => by simp [h1 p hp], fun p hp => by simp [h2 p hp]⟩

theorem validateCheckpoint_correct_witness :
    (validateCheckpoint (fun _ => true) (fun _ => lit "hello world") 3
        [lit "WORLD"] [lit "bye"]
      = ([lit "WORLD"].filter (fun p => !present (lit "hello world") p)).map expectedMsg
        ++ ([lit "bye"].filter (fun p => present (lit "hello world") p)).map forbiddenMsg)
    ∧ (validateCheckpoint (fun _ => true) (fun _ => lit "hello world") 3
          [lit "WORLD"] [lit "bye"] = []
        ↔ (∀ p ∈ [lit "WORLD"], present (lit "hello world") p = true)
          ∧ ∀ p ∈ [lit "bye"], present (lit "hello world") p = false) :=
  validateCheckpoint_correct (fun _ => true) (fun _ => lit "hello world") 3
    [lit "WORLD"] [lit "bye"] rfl (by decide)

/-- C9: pattern matching in `validate_checkpoint` is case-insensitive — a
single expected pattern produces no error exactly when its lowercasing is a
substring of the lowercased OCR text, and a single forbidden pattern produces
no error exactly when it is not. -/
theorem validateCheckpoint_case_insensitive (pat text : Str) (frame : Nat)
    (h : text ≠ []) :
    (validateCheckpoint (fun _ => true) (fun _ => text) frame [pat] [] = []
       ↔ lowerStr pat <:+: lowerStr text)
    ∧ (validateCheckpoint (fun _ => true) (fun _ => text) frame [] [pat] = []
       ↔ ¬ lowerStr pat <:+: lowerStr text) := by
  constructor
  · simp [validateCheckpoint, h, present]
  · constructor
    · intro hh
      by_contra hin
      simp [validateCheckpoint, h, present, hin] at hh
    · intro hin
      simp [validateCheckpoint, h, present, hin]

theorem validateCheckpoint_case_insensitive_witness :
    (validateCheckpoint (fun _ => true) (fun _ => lit "wt List --Full") 0
        [lit "WT LIST"] [] = []
       ↔ lowerStr (lit "WT LIST") <:+: lowerStr (lit "wt List --Full"))
    ∧ (validateCheckpoint (fun _ => true) (fun _ => lit "wt List --Full") 0
        [] [lit "WT LIST"] = []
       ↔ ¬ lowerStr (lit "WT LIST") <:+: lowerStr (lit "wt List --Full")) :=
  validateCheckpoint_case_insensitive (lit "WT LIST") (lit "wt List --Full") 0
    (by decide)

theorem foldl_append_filterP {α β : Type} (P : α → Prop) [DecidablePred P]
    (f : α → β) :
    ∀ (l : List α) (acc : List β),
      l.foldl (fun a x => if P x then a ++ [f x] else a) acc
        = acc ++ (l.filter (fun x => decide (P x))).map f := by
  intro l
  induction l with
  | nil => simp
  | cons x t ih =>
    intro acc
    simp only [List.foldl_cons, List.filter_cons]
    by_cases hc : P x <;> simp [hc, ih, List.append_assoc]

theorem verbose_foldl_fst (extractOk : Nat → Bool) (ocr : Nat → Str) :
    ∀ (cps : List (Nat × List Str × List Str)) (b : Bool) (ls : List Str),
      (cps.foldl (fun (st : Bool × List Str) cp =>
        let errs := validateCheckpoint extractOk ocr cp.1 cp.2.1 cp.2.2
        if errs ≠ [] then
          (false,
           st.2 ++ [lit "  ✗ Frame " ++ natStr cp.1]
                ++ errs.map (fun e => lit "    - " ++ e))
        else (st.1, st.2 ++ [lit "  ✓ Frame " ++ natStr cp.1])) (b, ls)).1
      = (b && cps.all
          (fun cp => decide (validateCheckpoint extractOk ocr cp.1 cp.2.1 cp.2.2 = []))) := by
  intro cps
  induction cps with
  | nil => simp
  | cons cp t ih =>
    intro b ls
    simp only [List.foldl_cons, List.all_cons]
    by_cases hc : validateCheckpoint extractOk ocr cp.1 cp.2.1 cp.2.2 = []
    · simp only [hc]
      rw [if_neg (by simp)]
      rw [ih]
      simp [hc]
    · rw [if_pos (by simpa using hc)]
      rw [ih]
      simp [hc]

/-- C10: given identical frame-extraction and OCR oracles, the verbose
validator reports success exactly when the non-verbose validator returns an
empty error list. -/
theorem verbose_agrees_with_plain (extractOk : Nat → Bool) (ocr : Nat → Str)
    (demo gifPath : Str) (gifExists : Bool) (missingTools : List Str) :
    (validateTuiDemoVerbose extractOk ocr demo gifPath gifExists missingTools).1 = true
      ↔ validateTuiDemo extractOk ocr demo gifPath gifExists missingTools = [] := by
  unfold validateTuiDemoVerbose validateTuiDemo
  cases hdemo : TUI_CHECKPOINTS.lookup demo with
  | none => simp
  | some cps =>
    cases hg : gifExists with
    | false => simp
    | true =>
      simp only [Bool.not_true, Bool.false_eq_true, if_false]
      by_cases hm : missingTools ≠ []
      · simp [hm]
      · rw [if_neg hm, if_neg hm]
        simp only []
        rw [verbose_foldl_fst]
        rw [foldl_append_filterP
          (fun cp => validateCheckpoint extractOk ocr cp.1 cp.2.1 cp.2.2 ≠ [])
          (fun cp => frameErrMsg cp.1 (validateCheckpoint extractOk ocr cp.1 cp.2.1 cp.2.2))
          cps []]
        simp only [Bool.true_and, List.nil_append, List.all_eq_true, List.map_eq_nil_iff,
          List.filter_eq_nil_iff]
        constructor
        · intro hall cp hcp
          simpa using hall cp hcp
        · intro hall cp hcp
          simpa using hall cp hcp

/-- C5 counterexample: with frame extraction failing on every frame, the first
checkpoint of `wt-zellij-omnibus` (frame 200) fails, yet the second checkpoint
(frame 1750) is still processed and contributes its own error entry — the run
does not abort at the first failing checkpoint. -/
theorem validateTuiDemo_no_abort_counterexample :
    validateTuiDemo (fun _ => false) (fun _ => []) (lit "wt-zellij-omnibus")
        (lit "demo.gif") true []
      = [frameErrMsg 200 [extractFailMsg 200],
         frameErrMsg 1750 [extractFailMsg 1750]] := by
  decide

/-- C5 amended: `validate_tui_demo` does not stop at a failing checkpoint — it
processes every checkpoint of the demo in order, each failing checkpoint
contributes exactly one summary entry, and the run fails (returns a nonempty
error list) precisely when some checkpoint fails. -/
theorem validateTuiDemo_processes_all (extractOk : Nat → Bool) (ocr : Nat → Str)
    (demo gifPath : Str) (cps : List (Nat × List Str × List Str))
    (hdemo : TUI_CHECKPOINTS.lookup demo = some cps) :
    validateTuiDemo extractOk ocr demo gifPath true []
      = (cps.filter
          (fun cp => decide (validateCheckpoint extractOk ocr cp.1 cp.2.1 cp.2.2 ≠ []))).map
          (fun cp => frameErrMsg cp.1 (validateCheckpoint extractOk ocr cp.1 cp.2.1 cp.2.2))
    ∧ (validateTuiDemo extractOk ocr demo gifPath true [] = []
        ↔ ∀ cp ∈ cps, validateCheckpoint extractOk ocr cp.1 cp.2.1 cp.2.2 = []) := by
  have heq : validateTuiDemo extractOk ocr demo gifPath true []
      = (cps.filter
          (fun cp => decide (validateCheckpoint extractOk ocr cp.1 cp.2.1 cp.2.2 ≠ []))).map
          (fun cp => frameErrMsg cp.1 (validateCheckpoint extractOk ocr cp.1 cp.2.1 cp.2.2)) := by
    unfold validateTuiDemo
    rw [hdemo]
    simp only [Bool.not_true, Bool.false_eq_true, if_false, ne_eq,
      not_true_eq_false]
    rw [foldl_append_filterP
      (fun cp => validateCheckpoint extractOk ocr cp.1 cp.2.1 cp.2.2 ≠ [])
      (fun cp => frameErrMsg cp.1 (validateCheckpoint extractOk ocr cp.1 cp.2.1 cp.2.2))
      cps []]
    simp
  refine ⟨heq, ?_⟩
  rw [heq]
  simp only [List.map_eq_nil_iff, List.filter_eq_nil_iff]
  constructor
  · intro hall cp hcp
    simpa using hall cp hcp
  · intro hall cp hcp
    simpa using hall cp hcp

theorem validateTuiDemo_processes_all_witness :
    (validateTuiDemo (fun _ => true) (fun _ => []) (lit "wt-zellij-omnibus")
        (lit "demo.gif") true []
      = ([(200, [lit "Opus", lit "acme", lit "Add a test"],
             [lit "command not found", lit "Unknown command"]),
          (1750, [lit "Branch", lit "main", lit "billing"],
             [lit "CONFLICT", lit "error:", lit "failed"])].filter
          (fun cp => decide (validateCheckpoint (fun _ => true) (fun _ => []) cp.1 cp.2.1 cp.2.2 ≠ []))).map
          (fun cp => frameErrMsg cp.1 (validateCheckpoint (fun _ => true) (fun _ => []) cp.1 cp.2.1 cp.2.2)))
    ∧ (validateTuiDemo (fun _ => true) (fun _ => []) (lit "wt-zellij-omnibus")
        (lit "demo.gif") true [] = []
        ↔ ∀ cp ∈ [(200, [lit "Opus", lit "acme", lit "Add a test"],
             [lit "command not found", lit "Unknown command"]),
          (1750, [lit "Branch", lit "main", lit "billing"],
             [lit "CONFLICT", lit "error:", lit "failed"])],
            validateCheckpoint (fun _ => true) (fun _ => []) cp.1 cp.2.1 cp.2.2 = []) :=
  validateTuiDemo_processes_all (fun _ => true) (fun _ => [])
    (lit "wt-zellij-omnibus") (lit "demo.gif") _ (by decide)

theorem digitChar_val : ∀ n, n < 10 → (digitChar n).toNat - 48 = n := by
  decide

theorem natStrAux_val : ∀ (fuel n : Nat), n ≤ fuel →
    (natStrAux fuel n).foldl (fun a c => 10 * a + (c.toNat - 48)) 0 = n := by
  intro fuel
  induction fuel with
  | zero =>
    intro n hn
    interval_cases n
    decide
  | succ fuel ih =>
    intro n hn
    by_cases h10 : n < 10
    · simp only [natStrAux, if_pos h10, List.foldl_cons, List.foldl_nil]
      rw [digitChar_val n h10]
      omega
    · simp only [natStrAux, if_neg h10]
      rw [List.foldl_append]
      have hdiv : n / 10 ≤ fuel := by
        have := Nat.div_lt_self (by omega : 0 < n) (by omega : 1 < 10)
        omega
      rw [ih (n / 10) hdiv]
      simp only [List.foldl_cons, List.foldl_nil]
      rw [digitChar_val (n % 10) (Nat.mod_lt n (by omega))]
      omega

theorem natStr_injective : ∀ m n : Nat, natStr m = natStr n → m = n := by
  intro m n h
  have hm := natStrAux_val m m (le_refl m)
  have hn := natStrAux_val n n (le_refl n)
  rw [natStr, natStr] at h
  rw [h] at hm
  omega


theorem dest_ne_tempPath (dest : PyPath) (pid : Nat)
    (hval : validSuffix dest.ext) : dest ≠ tempPathOf dest pid := by
  intro hcontra
  have hext : dest.ext = '.' :: (natStr pid ++ lit ".tmp") := by
    have := congrArg PyPath.ext hcontra
    simpa [tempPathOf, withSuffix] using this
  rcases hval with h0 | ⟨hhead, htail⟩
  · rw [h0] at hext
    exact List.noConfusion hext
  · apply htail
    rw [hext]
    simp only [List.tail_cons]
    exact List.mem_append_right _ (by decide)

/-- C4: `_download_file` writes to a temporary path unique to the calling
process (distinct PIDs give distinct temp paths), the temporary file never
remains afterwards (download failure included), an already-existing
destination keeps its content, and when the destination is absent the fetched
data is moved there.  `validSuffix` is the pathlib invariant on the
destination's extension. -/
theorem downloadFile_correct (fetch : Option Str) (dest : PyPath)
    (pid pid' : Nat) (fs : FsState) (hval : validSuffix dest.ext) :
    (tempPathOf dest pid = tempPathOf dest pid' → pid = pid')
    ∧ downloadFile fetch dest pid fs (tempPathOf dest pid) = none
    ∧ (∀ d, fs dest = some d → downloadFile fetch dest pid fs dest = some d)
    ∧ (∀ data, fetch = some data → fs dest = none →
        downloadFile fetch dest pid fs dest = some data) := by
  have hne : dest ≠ tempPathOf dest pid := dest_ne_tempPath dest pid hval
  refine ⟨?_, ?_, ?_, ?_⟩
  · intro h
    have hext := congrArg PyPath.ext h
    simp only [tempPathOf, withSuffix] at hext
    have happ : natStr pid ++ lit ".tmp" = natStr pid' ++ lit ".tmp" :=
      List.tail_eq_of_cons_eq hext
    exact natStr_injective pid pid' (List.append_cancel_right happ)
  · cases fetch with
    | none => simp [downloadFile, fsUnlink]
    | some data =>
      simp only [downloadFile]
      by_cases hd : ((fsWrite fs (tempPathOf dest pid) data) dest).isNone
      · rw [if_pos hd]
        simp [fsUnlink]
      · rw [if_neg hd]
        simp [fsUnlink]
  · intro d hd
    cases fetch with
    | none => simpa [downloadFile, fsUnlink, if_neg hne] using hd
    | some data =>
      simp only [downloadFile]
      have hw : (fsWrite fs (tempPathOf dest pid) data) dest = some d := by
        simp [fsWrite, if_neg hne, hd]
      rw [if_neg (by simp [hw])]
      simp [fsUnlink, if_neg hne, hw]
  · intro data hfetch hd
    subst hfetch
    simp only [downloadFile]
    have hw : (fsWrite fs (tempPathOf dest pid) data) dest = none := by
      simp [fsWrite, if_neg hne, hd]
    rw [if_pos (by simp [hw])]
    simp [fsUnlink, fsWrite, if_neg hne]

theorem downloadFile_correct_witness :
    ((tempPathOf ⟨lit "deps/", lit "claude", []⟩ 41
        = tempPathOf ⟨lit "deps/", lit "claude", []⟩ 41 → (41 : Nat) = 41)
    ∧ downloadFile (some (lit "data")) ⟨lit "deps/", lit "claude", []⟩ 41
        (fun _ => none) (tempPathOf ⟨lit "deps/", lit "claude", []⟩ 41) = none
    ∧ (∀ d, (fun _ => none : FsState) ⟨lit "deps/", lit "claude", []⟩ = some d →
        downloadFile (some (lit "data")) ⟨lit "deps/", lit "claude", []⟩ 41
          (fun _ => none) ⟨lit "deps/", lit "claude", []⟩ = some d)
    ∧ (∀ data, some (lit "data") = some data →
        (fun _ => none : FsState) ⟨lit "deps/", lit "claude", []⟩ = none →
        downloadFile (some (lit "data")) ⟨lit "deps/", lit "claude", []⟩ 41
          (fun _ => none) ⟨lit "deps/", lit "claude", []⟩ = some data)) :=
  downloadFile_correct (some (lit "data")) ⟨lit "deps/", lit "claude", []⟩ 41 41
    (fun _ => none) (Or.inl rfl)

/-- C6 counterexample: `render_tape` on a missing template file does not raise
— it returns `None` (after printing a warning), contradicting the claim that
every operation given a missing file raises a generic runtime error. -/
theorem renderTape_missing_returns_none :
    renderTape none [] [] = RenderResult.missingTemplate
    ∧ renderRaises (renderTape none [] []) = false := by
  constructor <;> rfl

/-- C6 amended: `render_tape` returns `None` (no exception) on a missing
template; `record_text` is the function that raises the `RuntimeError`, both
when the template failed to render and when VHS exits successfully without
creating the output file; and a failing subprocess raises through the
return-code check of `run`, whose `check` parameter defaults to `True`. -/
theorem missing_file_error_policy (fs : List (Str × Str))
    (repls : List (Str × Str)) (tempTxt : Str) (vhsExit : Nat)
    (created : Bool) (template : Option Str) (s stdout : Str) (rc : Nat)
    (hrc : rc ≠ 0) :
    renderTape none fs repls = RenderResult.missingTemplate
    ∧ recordText none fs repls tempTxt vhsExit created = RecordResult.renderError
    ∧ (renderTape template fs repls = RenderResult.rendered s → s ≠ [] →
        recordText template fs repls tempTxt 0 false = RecordResult.outputMissing)
    ∧ runCmd rc stdout = Except.error rc := by
  refine ⟨rfl, rfl, ?_, ?_⟩
  · intro hrend hs
    simp [recordText, hrend, hs]
  · simp [runCmd, hrc]

theorem missing_file_error_policy_witness :
    (renderTape none [] [] = RenderResult.missingTemplate
    ∧ recordText none [] [] (lit "/tmp/out.txt") 0 true = RecordResult.renderError
    ∧ (renderTape (some (lit "Type \x22ls\x22")) [] [] = RenderResult.rendered (lit "Type \x22ls\x22") →
        lit "Type \x22ls\x22" ≠ [] →
        recordText (some (lit "Type \x22ls\x22")) [] [] (lit "/tmp/out.txt") 0 false
          = RecordResult.outputMissing)
    ∧ runCmd 2 (lit "boom") = Except.error 2)
    ∧ recordText (some (lit "Type \x22ls\x22")) [] [] (lit "/tmp/out.txt") 0 false
        = RecordResult.outputMissing :=
  ⟨missing_file_error_policy [] [] (lit "/tmp/out.txt") 0 true
      (some (lit "Type \x22ls\x22")) (lit "Type \x22ls\x22") (lit "boom") 2 (by decide),
   (missing_file_error_policy [] [] (lit "/tmp/out.txt") 0 true
      (some (lit "Type \x22ls\x22")) (lit "Type \x22ls\x22") (lit "boom") 2
      (by decide)).2.2.1 (by decide) (by decide)⟩

theorem inlineLinesGo_eq_mapM (fs : List (Str × Str)) : ∀ ls : List Str,
    inlineLinesGo fs ls = ls.mapM (fun l =>
      match sourceArg l with
      | some p => (fs.lookup p).elim (Except.error p) Except.ok
      | none => Except.ok l) := by
  intro ls
  induction ls with
  | nil => rfl
  | cons l rest ih =>
    simp only [inlineLinesGo, List.mapM_cons, ih]
    cases hsa : sourceArg l with
    | none =>
      cases hrest : rest.mapM (fun l =>
        match sourceArg l with
        | some p => (fs.lookup p).elim (Except.error p) Except.ok
        | none => Except.ok l) <;> simp [hsa, hrest, Except.map, bind, Except.bind, pure, Except.pure]
    | some p =>
      cases hlk : fs.lookup p with
      | none => simp [hsa, hlk, bind, Except.bind]
      | some content =>
        cases hrest : rest.mapM (fun l =>
          match sourceArg l with
          | some p => (fs.lookup p).elim (Except.error p) Except.ok
          | none => Except.ok l) <;> simp [hsa, hlk, hrest, Except.map, bind, Except.bind, pure, Except.pure]

theorem renderTapeSpec_eq_inline (fs : List (Str × Str))
    (repls : List (Str × Str)) (s : Str) :
    renderTapeSpec (some s) fs repls
      = (match inlineSources fs s with
         | .error p => RenderResult.sourceError p
         | .ok inlined => RenderResult.rendered (substTokens repls inlined)) := by
  simp only [renderTapeSpec, inlineSources, inlineLinesGo_eq_mapM]
  cases h : (splitLines s).mapM (fun l =>
    match sourceArg l with
    | some p => (fs.lookup p).elim (Except.error p) Except.ok
    | none => Except.ok l) <;> simp [Except.map]

theorem visAfter_cons (v0 : Bool) (l : Str) (ls : List Str) :
    visAfter v0 (l :: ls) = visAfter (updateVis v0 (stripWS l)) ls := rfl

theorem visAfter_nil (v0 : Bool) : visAfter v0 [] = v0 := rfl

theorem specExtract_cons (prefixes : List Str) (l : Str) (rest : List Str)
    (v0 : Bool) :
    specExtract prefixes v0 (l :: rest)
      = (match (if updateVis v0 (stripWS l) then typeCmd (stripWS l) else none) with
         | some cmd =>
           if nextIsEnter rest && prefixes.any (fun p => p.isPrefixOf cmd) then
             cmd :: specExtract prefixes (updateVis v0 (stripWS l)) rest
           else specExtract prefixes (updateVis v0 (stripWS l)) rest
         | none => specExtract prefixes (updateVis v0 (stripWS l)) rest) := by
  unfold specExtract
  rw [List.length_cons, List.range_succ_eq_map, List.filterMap_cons, List.filterMap_map]
  simp only [Nat.succ_eq_add_one, Function.comp_def, List.getD_cons_succ, List.getD_cons_zero,
    List.take_succ_cons, List.drop_succ_cons, visAfter_cons, visAfter_nil, List.take_zero,
    List.drop_zero]
  cases hoc : (if updateVis v0 (stripWS l) = true then typeCmd (stripWS l) else none) with
  | none => simp [hoc]
  | some cmd =>
    by_cases hc : (nextIsEnter rest && prefixes.any fun p => List.isPrefixOf p cmd) = true <;>
      simp [hoc, hc]

theorem scanCommands_eq_specExtract (prefixes : List Str) :
    ∀ (lines : List Str) (v0 : Bool),
      scanCommands prefixes v0 lines = specExtract prefixes v0 lines := by
  intro lines
  induction lines with
  | nil => intro v0; rfl
  | cons l rest ih =>
    intro v0
    rw [specExtract_cons]
    simp only [scanCommands]
    cases hoc : (if updateVis v0 (stripWS l) = true then typeCmd (stripWS l) else none) with
    | none => simp [hoc, ih]
    | some cmd =>
      by_cases hc : (nextIsEnter rest && prefixes.any fun p => List.isPrefixOf p cmd) = true <;>
        simp [hoc, hc, ih]

theorem extractCommands_eq_scan (template : Option Str) (fs : List (Str × Str))
    (prefixes : List Str) (s : Str)
    (hrend : renderTape template fs [] = RenderResult.rendered s) :
    extractCommandsFromTape template fs prefixes
      = Except.ok (scanCommands prefixes false (splitLines s)) := by
  unfold extractCommandsFromTape
  rw [hrend]
  by_cases hs : s = []
  · subst hs
    rfl
  · show (if s = [] then Except.ok [] else
        Except.ok (scanCommands prefixes false (splitLines s))) = _
    rw [if_neg hs]

/-- C3: whenever the tape renders (with the empty replacements dictionary used
by `extract_commands_from_tape`), the extracted commands are exactly those
whose line matches the `Type "cmd"` pattern while the Show/Hide visibility
flag is on, whose next non-blank non-`Sleep` line is exactly `Enter`, and
which start with one of the given prefixes — in order of appearance; the
default prefixes are `wt` and `git`. -/
theorem extractCommands_spec (template : Option Str) (fs : List (Str × Str))
    (prefixes : List Str) (s : Str)
    (hrend : renderTape template fs [] = RenderResult.rendered s) :
    extractCommandsFromTape template fs prefixes
      = Except.ok (specExtract prefixes false (splitLines s))
    ∧ defaultCommandPrefixes = [lit "wt", lit "git"] := by
  refine ⟨?_, rfl⟩
  rw [extractCommands_eq_scan template fs prefixes s hrend,
    scanCommands_eq_specExtract]

theorem extractCommands_spec_witness :
    extractCommandsFromTape
        (some (lit "Show\nType \x22wt list\x22\nEnter\nHide\nType \x22git st\x22\nEnter")) []
        defaultCommandPrefixes
      = Except.ok (specExtract defaultCommandPrefixes false
          (splitLines (lit "Show\nType \x22wt list\x22\nEnter\nHide\nType \x22git st\x22\nEnter")))
    ∧ defaultCommandPrefixes = [lit "wt", lit "git"] :=
  extractCommands_spec
    (some (lit "Show\nType \x22wt list\x22\nEnter\nHide\nType \x22git st\x22\nEnter")) []
    defaultCommandPrefixes
    (lit "Show\nType \x22wt list\x22\nEnter\nHide\nType \x22git st\x22\nEnter") (by decide)

theorem updateVis_false (s : Str) (hs : s ≠ lit "Show") :
    updateVis false s = false := by
  unfold updateVis
  rw [if_neg hs]
  by_cases hh : s = lit "Hide" <;> simp [hh]

theorem scanCommands_noShow (prefixes : List Str) :
    ∀ ls : List Str, (∀ l ∈ ls, stripWS l ≠ lit "Show") →
      scanCommands prefixes false ls = [] := by
  intro ls
  induction ls with
  | nil => intro _; rfl
  | cons l rest ih =>
    intro hno
    simp only [scanCommands, updateVis_false (stripWS l) (hno l (by simp))]
    simp only [Bool.false_eq_true, if_false]
    exact ih (fun x hx => hno x (by simp [hx]))

theorem scanCommands_append_noShow (prefixes : List Str) :
    ∀ (pre rest : List Str), (∀ l ∈ pre, stripWS l ≠ lit "Show") →
      scanCommands prefixes false (pre ++ rest)
        = scanCommands prefixes false rest := by
  intro pre
  induction pre with
  | nil => intro rest _; rfl
  | cons l pre' ih =>
    intro rest hno
    simp only [List.cons_append, scanCommands,
      updateVis_false (stripWS l) (hno l (by simp))]
    simp only [Bool.false_eq_true, if_false]
    exact ih rest (fun x hx => hno x (by simp [hx]))

/-- C8: the scanner starts with the visibility flag off — commands occurring
before the first `Show` line are never extracted (the scan of the whole line
list equals the scan of the part from the first `Show` on), and a rendered
tape containing no `Show` line at all yields an empty command list. -/
theorem extractCommands_before_show (template : Option Str)
    (fs : List (Str × Str)) (prefixes : List Str) (s : Str)
    (pre rest : List Str)
    (hrend : renderTape template fs [] = RenderResult.rendered s) :
    ((∀ l ∈ splitLines s, stripWS l ≠ lit "Show") →
       extractCommandsFromTape template fs prefixes = Except.ok [])
    ∧ (splitLines s = pre ++ rest → (∀ l ∈ pre, stripWS l ≠ lit "Show") →
       extractCommandsFromTape template fs prefixes
         = Except.ok (scanCommands prefixes false rest)) := by
  constructor
  · intro hno
    rw [extractCommands_eq_scan template fs prefixes s hrend,
      scanCommands_noShow prefixes (splitLines s) hno]
  · intro hsplit hno
    rw [extractCommands_eq_scan template fs prefixes s hrend, hsplit,
      scanCommands_append_noShow prefixes pre rest hno]

theorem extractCommands_before_show_witness :
    ((∀ l ∈ splitLines (lit "Type \x22wt a\x22\nEnter\nHide\nType \x22wt b\x22\nEnter"),
        stripWS l ≠ lit "Show") →
      extractCommandsFromTape
          (some (lit "Type \x22wt a\x22\nEnter\nHide\nType \x22wt b\x22\nEnter")) []
          defaultCommandPrefixes = Except.ok [])
    ∧ (splitLines (lit "Type \x22wt a\x22\nEnter\nHide\nType \x22wt b\x22\nEnter")
          = [lit "Type \x22wt a\x22", lit "Enter"]
            ++ [lit "Hide", lit "Type \x22wt b\x22", lit "Enter"] →
       (∀ l ∈ [lit "Type \x22wt a\x22", lit "Enter"], stripWS l ≠ lit "Show") →
       extractCommandsFromTape
           (some (lit "Type \x22wt a\x22\nEnter\nHide\nType \x22wt b\x22\nEnter")) []
           defaultCommandPrefixes
         = Except.ok (scanCommands defaultCommandPrefixes false
             [lit "Hide", lit "Type \x22wt b\x22", lit "Enter"])) :=
  extractCommands_before_show
    (some (lit "Type \x22wt a\x22\nEnter\nHide\nType \x22wt b\x22\nEnter")) []
    defaultCommandPrefixes
    (lit "Type \x22wt a\x22\nEnter\nHide\nType \x22wt b\x22\nEnter")
    [lit "Type \x22wt a\x22", lit "Enter"]
    [lit "Hide", lit "Type \x22wt b\x22", lit "Enter"] (by decide)

theorem replaceLAux_fuel_irrel (pat rep : Str) :
    ∀ (f1 : Nat), ∀ (f2 : Nat) (s : Str), s.length ≤ f1 → s.length ≤ f2 →
      replaceLAux pat rep f1 s = replaceLAux pat rep f2 s := by
  intro f1
  induction f1 with
  | zero =>
    intro f2 s hs1 _
    have hnil : s = [] := List.eq_nil_of_length_eq_zero (Nat.le_zero.mp hs1)
    subst hnil
    cases f2 <;> rfl
  | succ f1 ih =>
    intro f2 s hs1 hs2
    cases s with
    | nil => cases f2 <;> rfl
    | cons c t =>
      cases f2 with
      | zero => simp at hs2
      | succ f2 =>
        simp only [replaceLAux]
        by_cases hcond : pat ≠ [] ∧ pat <+: (c :: t)
        · rw [if_pos hcond, if_pos hcond]
          have hp : 0 < pat.length := List.length_pos.mpr hcond.1
          have hlen : ((c :: t).drop pat.length).length ≤ f1 := by
            simp only [List.length_drop, List.length_cons]
            simp only [List.length_cons] at hs1
            omega
          have hlen2 : ((c :: t).drop pat.length).length ≤ f2 := by
            simp only [List.length_drop, List.length_cons]
            simp only [List.length_cons] at hs2
            omega
          rw [ih f2 _ hlen hlen2]
        · rw [if_neg hcond, if_neg hcond]
          simp only [List.length_cons] at hs1 hs2
          rw [ih f2 t (by omega) (by omega)]

theorem replaceL_cons (pat rep : Str) (c : Char) (t : Str) :
    replaceL pat rep (c :: t)
      = if pat ≠ [] ∧ pat <+: (c :: t) then
          rep ++ replaceL pat rep ((c :: t).drop pat.length)
        else c :: replaceL pat rep t := by
  show replaceLAux pat rep (t.length + 1) (c :: t) = _
  simp only [replaceLAux]
  by_cases hcond : pat ≠ [] ∧ pat <+: (c :: t)
  · rw [if_pos hcond, if_pos hcond]
    have hp : 0 < pat.length := List.length_pos.mpr hcond.1
    rw [replaceLAux_fuel_irrel pat rep t.length ((c :: t).drop pat.length).length _
      (by simp only [List.length_drop, List.length_cons]; omega) (le_refl _)]
    rfl
  · rw [if_neg hcond, if_neg hcond]
    rfl

theorem replaceL_nil (pat rep : Str) : replaceL pat rep [] = [] := rfl

theorem infix_append_of_disjoint (u : Str) (hu : u ≠ []) (X : Str) :
    ∀ (r : Str), (∀ c ∈ r, c ∉ u) → u <:+: r ++ X → u <:+: X := by
  intro r
  induction r with
  | nil => intro _ h; simpa using h
  | cons r0 r' ih =>
    intro hdisj h
    rw [List.cons_append, List.infix_cons_iff] at h
    rcases h with hpre | hinf
    · cases u with
      | nil => exact absurd rfl hu
      | cons u0 u' =>
        rw [List.cons_prefix_cons] at hpre
        exact absurd (hpre.1 ▸ List.mem_cons_self u0 u')
          (hdisj r0 (List.mem_cons_self r0 r'))
    · exact ih (fun c hc => hdisj c (List.mem_cons_of_mem r0 hc)) hinf

theorem prefix_replaceL_inv (pat rep : Str) (hrep : rep ≠ []) :
    ∀ (n : Nat) (s u : Str), s.length ≤ n → u ≠ [] → (∀ c ∈ rep, c ∉ u) →
      u <+: replaceL pat rep s → u <+: s := by
  intro n
  induction n with
  | zero =>
    intro s u hs hu _ hpre
    have hnil : s = [] := List.eq_nil_of_length_eq_zero (Nat.le_zero.mp hs)
    subst hnil
    rw [replaceL_nil] at hpre
    exact absurd (List.prefix_nil.mp hpre) hu
  | succ n ih =>
    intro s u hs hu hdisj hpre
    cases s with
    | nil =>
      rw [replaceL_nil] at hpre
      exact absurd (List.prefix_nil.mp hpre) hu
    | cons c t =>
      rw [replaceL_cons] at hpre
      by_cases hcond : pat ≠ [] ∧ pat <+: (c :: t)
      · rw [if_pos hcond] at hpre
        cases u with
        | nil => exact absurd rfl hu
        | cons u0 u' =>
          obtain ⟨q0, q', rfl⟩ : ∃ q0 q', rep = q0 :: q' := by
            cases rep with
            | nil => exact absurd rfl hrep
            | cons a b => exact ⟨a, b, rfl⟩
          rw [List.cons_append, List.cons_prefix_cons] at hpre
          obtain ⟨rfl, -⟩ := hpre
          exact absurd (List.mem_cons_self u0 u')
            (hdisj u0 (List.mem_cons_self u0 q'))
      · rw [if_neg hcond] at hpre
        cases u with
        | nil => exact absurd rfl hu
        | cons u0 u' =>
          rw [List.cons_prefix_cons] at hpre
          obtain ⟨rfl, hpre'⟩ := hpre
          by_cases hu' : u' = []
          · subst hu'
            rw [List.cons_prefix_cons]
            exact ⟨rfl, ⟨_, rfl⟩⟩
          · have ht : u' <+: t := by
              apply ih t u' _ hu' _ hpre'
              · simp only [List.length_cons] at hs
                omega
              · exact fun c hc hcu => hdisj c hc (List.mem_cons_of_mem u0 hcu)
            rw [List.cons_prefix_cons]
            exact ⟨rfl, ht⟩

theorem infix_replaceL_inv (pat rep : Str) (hrep : rep ≠ []) :
    ∀ (n : Nat) (s u : Str), s.length ≤ n → u ≠ [] → (∀ c ∈ rep, c ∉ u) →
      u <:+: replaceL pat rep s → u <:+: s := by
  intro n
  induction n with
  | zero =>
    intro s u hs hu _ hinf
    have hnil : s = [] := List.eq_nil_of_length_eq_zero (Nat.le_zero.mp hs)
    subst hnil
    rw [replaceL_nil] at hinf
    exact absurd (List.eq_nil_of_infix_nil hinf) hu
  | succ n ih =>
    intro s u hs hu hdisj hinf
    cases s with
    | nil =>
      rw [replaceL_nil] at hinf
      exact absurd (List.eq_nil_of_infix_nil hinf) hu
    | cons c t =>
      rw [replaceL_cons] at hinf
      by_cases hcond : pat ≠ [] ∧ pat <+: (c :: t)
      · rw [if_pos hcond] at hinf
        have hx : u <:+: replaceL pat rep ((c :: t).drop pat.length) :=
          infix_append_of_disjoint u hu _ rep hdisj hinf
        have hp : 0 < pat.length := List.length_pos.mpr hcond.1
        have hlen : ((c :: t).drop pat.length).length ≤ n := by
          simp only [List.length_drop, List.length_cons]
          simp only [List.length_cons] at hs
          omega
        have hdrop : u <:+: (c :: t).drop pat.length := ih _ u hlen hu hdisj hx
        exact hdrop.trans (List.drop_suffix pat.length (c :: t)).isInfix
      · rw [if_neg hcond] at hinf
        rw [List.infix_cons_iff] at hinf
        rcases hinf with hpre | hinf
        · cases u with
          | nil => exact absurd rfl hu
          | cons u0 u' =>
            rw [List.cons_prefix_cons] at hpre
            obtain ⟨rfl, hpre'⟩ := hpre
            by_cases hu' : u' = []
            · subst hu'
              exact List.IsPrefix.isInfix (by rw [List.cons_prefix_cons]; exact ⟨rfl, ⟨_, rfl⟩⟩)
            · have ht : u' <+: t := by
                apply prefix_replaceL_inv pat rep hrep t.length t u' (le_refl _) hu' _ hpre'
                exact fun ch hc hcu => hdisj ch hc (List.mem_cons_of_mem u0 hcu)
              exact List.IsPrefix.isInfix (by rw [List.cons_prefix_cons]; exact ⟨rfl, ht⟩)
        · have ht : u <:+: t := by
            apply ih t u _ hu hdisj hinf
            simp only [List.length_cons] at hs
            omega
          exact List.infix_cons_iff.mpr (Or.inr ht)

theorem replaceL_eliminates (pat rep : Str) (hpat : pat ≠ []) (hrep : rep ≠ [])
    (hdisj : ∀ c ∈ rep, c ∉ pat) :
    ∀ (n : Nat) (s : Str), s.length ≤ n → ¬ pat <:+: replaceL pat rep s := by
  intro n
  induction n with
  | zero =>
    intro s hs hinf
    have hnil : s = [] := List.eq_nil_of_length_eq_zero (Nat.le_zero.mp hs)
    subst hnil
    rw [replaceL_nil] at hinf
    exact absurd (List.eq_nil_of_infix_nil hinf) hpat
  | succ n ih =>
    intro s hs hinf
    cases s with
    | nil =>
      rw [replaceL_nil] at hinf
      exact absurd (List.eq_nil_of_infix_nil hinf) hpat
    | cons c t =>
      rw [replaceL_cons] at hinf
      by_cases hcond : pat ≠ [] ∧ pat <+: (c :: t)
      · rw [if_pos hcond] at hinf
        have hx : pat <:+: replaceL pat rep ((c :: t).drop pat.length) :=
          infix_append_of_disjoint pat hpat _ rep hdisj hinf
        have hp : 0 < pat.length := List.length_pos.mpr hpat
        apply ih ((c :: t).drop pat.length) _ hx
        simp only [List.length_drop, List.length_cons]
        simp only [List.length_cons] at hs
        omega
      · rw [if_neg hcond] at hinf
        have hnopre : ¬ pat <+: (c :: t) := fun hp => hcond ⟨hpat, hp⟩
        rw [List.infix_cons_iff] at hinf
        rcases hinf with hpre | hinf
        · cases hpc : pat with
          | nil => exact absurd hpc hpat
          | cons p0 p' =>
            rw [hpc, List.cons_prefix_cons] at hpre
            obtain ⟨rfl, hpre'⟩ := hpre
            by_cases hp' : p' = []
            · subst hp'
              exact hnopre (by rw [hpc, List.cons_prefix_cons]; exact ⟨rfl, ⟨_, rfl⟩⟩)
            · have ht : p' <+: t := by
                apply prefix_replaceL_inv (p0 :: p') rep hrep t.length t p'
                  (le_refl _) hp' _ hpre'
                intro ch hc hcp
                exact hdisj ch hc (by rw [hpc]; exact List.mem_cons_of_mem p0 hcp)
              exact hnopre (by rw [hpc, List.cons_prefix_cons]; exact ⟨rfl, ht⟩)
        · apply ih t _ hinf
          simp only [List.length_cons] at hs
          omega

theorem token_ne_nil (k : Str) : token k ≠ [] := by simp [token]

theorem substTokens_cons (kv : Str × Str) (rest : List (Str × Str)) (s : Str) :
    substTokens (kv :: rest) s
      = substTokens rest (replaceL (token kv.1) kv.2 s) := rfl

theorem substTokens_preserves_free (u : Str) (hu : u ≠ []) :
    ∀ (repls : List (Str × Str)) (s : Str),
      (∀ kv ∈ repls, kv.2 ≠ [] ∧ ∀ c ∈ kv.2, c ∉ u) →
      ¬ u <:+: s → ¬ u <:+: substTokens repls s := by
  intro repls
  induction repls with
  | nil => intro s _ hfree; exact hfree
  | cons kv rest ih =>
    intro s hyp hfree
    rw [substTokens_cons]
    apply ih _ (fun kv' hkv' => hyp kv' (List.mem_cons_of_mem kv hkv'))
    intro hinf
    exact hfree (infix_replaceL_inv (token kv.1) kv.2
      (hyp kv (List.mem_cons_self kv rest)).1 s.length s u (le_refl _) hu
      (hyp kv (List.mem_cons_self kv rest)).2 hinf)

theorem substTokens_token_free :
    ∀ (repls : List (Str × Str)) (s : Str),
      (∀ kv ∈ repls, kv.2 ≠ [] ∧ ∀ c ∈ kv.2, ∀ kv' ∈ repls, c ∉ token kv'.1) →
      ∀ kv ∈ repls, ¬ token kv.1 <:+: substTokens repls s := by
  intro repls
  induction repls with
  | nil => intro s _ kv hkv; exact absurd hkv (List.not_mem_nil kv)
  | cons hd rest ih =>
    intro s hyp kv hkv
    rw [substTokens_cons]
    rcases List.mem_cons.mp hkv with rfl | hmem
    · apply substTokens_preserves_free (token kv.1) (token_ne_nil kv.1) rest _
        (fun kv' hkv' => ⟨(hyp kv' (List.mem_cons_of_mem kv hkv')).1,
          fun c hc => (hyp kv' (List.mem_cons_of_mem kv hkv')).2 c hc kv
            (List.mem_cons_self kv rest)⟩)
      exact replaceL_eliminates (token kv.1) kv.2 (token_ne_nil kv.1)
        (hyp kv (List.mem_cons_self kv rest)).1
        (fun c hc => (hyp kv (List.mem_cons_self kv rest)).2 c hc kv
          (List.mem_cons_self kv rest))
        s.length s (le_refl _)
    · exact ih _ (fun kv' hkv' => ⟨(hyp kv' (List.mem_cons_of_mem hd hkv')).1,
        fun c hc kv'' hkv'' => (hyp kv' (List.mem_cons_of_mem hd hkv')).2 c hc kv''
          (List.mem_cons_of_mem hd hkv'')⟩) kv hmem

/-- C2 counterexample: rendering the template `\x7b\x7bB\x7d\x7d\x7d\x7d` with the single
replacement `B ↦ \x7b\x7bB` satisfies the claim's hypothesis — no substituted value
contains a `\x7b\x7bKEY\x7d\x7d` token for any key of the dictionary — yet the returned
string is exactly the token `\x7b\x7bB\x7d\x7d`: the literal replacement re-forms a token
at the boundary between the substituted value and the remaining text. -/
theorem renderTape_token_reformed :
    renderTape (some (lit "\x7b\x7bB\x7d\x7d\x7d\x7d")) [] [(lit "B", lit "\x7b\x7bB")]
      = RenderResult.rendered (lit "\x7b\x7bB\x7d\x7d")
    ∧ (∀ kv ∈ [(lit "B", lit "\x7b\x7bB")], ∀ kv' ∈ [(lit "B", lit "\x7b\x7bB")],
        ¬ token kv'.1 <:+: kv.2)
    ∧ token (lit "B") <:+: lit "\x7b\x7bB\x7d\x7d" := by
  refine ⟨by decide, by decide, by decide⟩

/-- C2 amended: `render_tape` substitutes each key's token by sequential
left-to-right literal replacement; the returned string is guaranteed to
contain no `\x7b\x7bKEY\x7d\x7d` token of the dictionary when every substituted value is
nonempty and shares no character with any such token (no brace and no
character of any key) — without that strengthening a replacement can re-form
a token at a boundary, as the counterexample shows. -/
theorem renderTape_token_free (template : Option Str) (fs : List (Str × Str))
    (repls : List (Str × Str)) (out : Str)
    (hrend : renderTape template fs repls = RenderResult.rendered out)
    (hvals : ∀ kv ∈ repls, kv.2 ≠ [] ∧ ∀ c ∈ kv.2, ∀ kv' ∈ repls, c ∉ token kv'.1) :
    ∀ kv ∈ repls, ¬ token kv.1 <:+: out := by
  cases template with
  | none => exact absurd hrend (by simp [renderTape])
  | some s =>
    rw [renderTape] at hrend
    cases hinl : sourceSub fs s with
    | error p => rw [hinl] at hrend; exact absurd hrend (by simp)
    | ok inlined =>
      rw [hinl] at hrend
      have hout : out = substTokens repls inlined := by
        have := hrend
        simp only [RenderResult.rendered.injEq] at this
        exact this.symm
      rw [hout]
      exact substTokens_token_free repls inlined hvals

theorem renderTape_token_free_witness :
    ¬ token (lit "NAME") <:+: lit "Hello world!" :=
  renderTape_token_free (some (lit "Hello \x7b\x7bNAME\x7d\x7d!")) []
    [(lit "NAME", lit "world")] (lit "Hello world!") (by decide) (by decide)
    (lit "NAME", lit "world") (by decide)

theorem takeWhile_append_stop {p : Char → Bool} :
    ∀ (a b : Str), (∃ c ∈ a, p c = false) →
      (a ++ b).takeWhile p = a.takeWhile p := by
  intro a
  induction a with
  | nil => intro b h; simp at h
  | cons c a' ih =>
    intro b h
    rw [List.cons_append, List.takeWhile_cons, List.takeWhile_cons]
    cases hc : p c with
    | false => simp
    | true =>
      simp only [if_pos rfl]
      obtain ⟨d, hd, hdp⟩ := h
      rcases List.mem_cons.mp hd with rfl | hd'
      · exact absurd hc (by simp [hdp])
      · rw [ih b ⟨d, hd', hdp⟩]

theorem dropWhile_append_stop {p : Char → Bool} :
    ∀ (a b : Str), (∃ c ∈ a, p c = false) →
      (a ++ b).dropWhile p = a.dropWhile p ++ b := by
  intro a
  induction a with
  | nil => intro b h; simp at h
  | cons c a' ih =>
    intro b h
    rw [List.cons_append, List.dropWhile_cons, List.dropWhile_cons]
    cases hc : p c with
    | false => simp
    | true =>
      simp only [if_pos rfl]
      obtain ⟨d, hd, hdp⟩ := h
      rcases List.mem_cons.mp hd with rfl | hd'
      · exact absurd hc (by simp [hdp])
      · exact ih b ⟨d, hd', hdp⟩

theorem takeWhile_append_all {p : Char → Bool} :
    ∀ (a b : Str), (∀ c ∈ a, p c = true) →
      (a ++ b).takeWhile p = a ++ b.takeWhile p := by
  intro a
  induction a with
  | nil => intro b _; rfl
  | cons c a' ih =>
    intro b h
    rw [List.cons_append, List.takeWhile_cons, if_pos (h c (by simp))]
    rw [ih b (fun d hd => h d (by simp [hd]))]
    rfl

theorem takeWhile_eq_self {p : Char → Bool} (a : Str)
    (h : ∀ c ∈ a, p c = true) : a.takeWhile p = a := by
  have := takeWhile_append_all a [] h
  simpa using this

theorem drop_length_takeWhile (p : Char → Bool) :
    ∀ l : Str, l.drop (l.takeWhile p).length = l.dropWhile p := by
  intro l
  induction l with
  | nil => rfl
  | cons c t ih =>
    rw [List.takeWhile_cons, List.dropWhile_cons]
    cases hc : p c <;> simp [hc, ih]

theorem length_takeWhile_le' (p : Char → Bool) (l : Str) :
    (l.takeWhile p).length ≤ l.length := by
  have h := congrArg List.length (List.takeWhile_append_dropWhile p l)
  rw [List.length_append] at h
  omega

theorem splitOnChar_ne_nil (c : Char) : ∀ s : Str, splitOnChar c s ≠ [] := by
  intro s
  cases s with
  | nil => simp [splitOnChar]
  | cons a t =>
    unfold splitOnChar
    by_cases hac : a = c
    · simp [hac]
    · rw [if_neg hac]
      cases splitOnChar c t <;> simp

theorem splitOnChar_not_mem (c : Char) :
    ∀ s : Str, ∀ l ∈ splitOnChar c s, c ∉ l := by
  intro s
  induction s with
  | nil =>
    intro l hl
    simp only [splitOnChar, List.mem_singleton] at hl
    simp [hl]
  | cons a t ih =>
    intro l hl
    unfold splitOnChar at hl
    by_cases hac : a = c
    · rw [if_pos hac] at hl
      rcases List.mem_cons.mp hl with rfl | hl'
      · simp
      · exact ih l hl'
    · rw [if_neg hac] at hl
      cases hr : splitOnChar c t with
      | nil => exact absurd hr (splitOnChar_ne_nil c t)
      | cons h t' =>
        rw [hr] at hl
        rcases List.mem_cons.mp hl with rfl | hl'
        · intro hmem
          rcases List.mem_cons.mp hmem with rfl | hmem'
          · exact hac rfl
          · exact ih h (hr ▸ List.mem_cons_self h t') hmem'
        · exact ih l (hr ▸ List.mem_cons_of_mem h hl')

theorem splitLines_no_newline (s : Str) : ∀ l ∈ splitLines s, '\n' ∉ l :=
  fun l hl => splitOnChar_not_mem '\n' s l hl

theorem joinLines_nil : joinLines [] = [] := rfl

theorem joinLines_single (x : Str) : joinLines [x] = x := by
  simp [joinLines]

theorem joinLines_cons₂ (x y : Str) (zs : List Str) :
    joinLines (x :: y :: zs) = x ++ '\n' :: joinLines (y :: zs) := by
  simp only [joinLines, List.intersperse_cons₂, List.flatten_cons]
  rfl

theorem joinLines_cons (x : Str) (ls : List Str) (h : ls ≠ []) :
    joinLines (x :: ls) = x ++ '\n' :: joinLines ls := by
  cases ls with
  | nil => exact absurd rfl h
  | cons y zs => exact joinLines_cons₂ x y zs

theorem joinLines_splitLines : ∀ s : Str, joinLines (splitLines s) = s := by
  intro s
  induction s with
  | nil => rfl
  | cons a t ih =>
    show joinLines (splitOnChar '\n' (a :: t)) = a :: t
    have iht : joinLines (splitOnChar '\n' t) = t := ih
    unfold splitOnChar
    by_cases hac : a = '\n'
    · rw [if_pos hac]
      rw [joinLines_cons [] (splitOnChar '\n' t) (splitOnChar_ne_nil '\n' t)]
      rw [iht, hac]
      rfl
    · rw [if_neg hac]
      cases hr : splitOnChar '\n' t with
      | nil => exact absurd hr (splitOnChar_ne_nil '\n' t)
      | cons h t' =>
        rw [hr] at iht
        cases t' with
        | nil =>
          rw [joinLines_single]
          rw [joinLines_single] at iht
          rw [iht]
        | cons y zs =>
          rw [joinLines_cons₂]
          rw [joinLines_cons₂] at iht
          rw [List.cons_append, iht]

theorem take_six_length {s : Str} (h : s.take 6 = "Source".toList) :
    6 ≤ s.length := by
  have hl := congrArg List.length h
  rw [List.length_take] at hl
  have : ("Source".toList).length = 6 := by decide
  rw [this] at hl
  omega

theorem sourceMatchAt_rem_lt {s g rem : Str}
    (h : sourceMatchAt s = some (g, rem)) : rem.length < s.length := by
  simp only [sourceMatchAt] at h
  split at h
  case isFalse => exact absurd h (by simp)
  case isTrue h6 =>
    have hlen6 : 6 ≤ s.length := take_six_length h6
    split at h
    case isTrue => exact absurd h (by simp)
    case isFalse hw0 =>
      split at h
      case isTrue hrem =>
        simp only [Option.some.injEq, Prod.mk.injEq] at h
        obtain ⟨-, hr⟩ := h
        have h1 : rem.length ≤ (((s.drop 6).drop
            ((s.drop 6).takeWhile isPySpace).length).takeWhile
              (fun c => decide ¬c = '\n')).length
            + rem.length := Nat.le_add_left _ _
        have h2 := congrArg List.length hr
        simp only [List.length_drop] at h2
        have h3 : ((s.drop 6).takeWhile isPySpace).length ≠ 0 := hw0
        have h4 := length_takeWhile_le' isPySpace (s.drop 6)
        simp only [List.length_drop] at h4 ⊢
        omega
      case isFalse =>
        split at h
        case h_1 k hk =>
          split at h
          case isTrue hk1 =>
            simp only [Option.some.injEq, Prod.mk.injEq] at h
            obtain ⟨-, hr⟩ := h
            have h2 := congrArg List.length hr
            simp only [List.length_drop] at h2
            have h4 := length_takeWhile_le' isPySpace (s.drop 6)
            simp only [List.length_drop] at h4
            omega
          case isFalse => exact absurd h (by simp)
        case h_2 => exact absurd h (by simp)

theorem sourceSubAux_fuel_irrel (fs : List (Str × Str)) :
    ∀ (f1 f2 : Nat) (flag : Bool) (s : Str), s.length ≤ f1 → s.length ≤ f2 →
      sourceSubAux fs f1 flag s = sourceSubAux fs f2 flag s := by
  intro f1
  induction f1 with
  | zero =>
    intro f2 flag s hs1 _
    have hnil : s = [] := List.eq_nil_of_length_eq_zero (Nat.le_zero.mp hs1)
    subst hnil
    cases f2 <;> rfl
  | succ f1 ih =>
    intro f2 flag s hs1 hs2
    cases s with
    | nil => cases f2 <;> rfl
    | cons c t =>
      cases f2 with
      | zero => simp at hs2
      | succ f2 =>
        simp only [sourceSubAux]
        cases hm : (if flag then sourceMatchAt (c :: t) else none) with
        | none =>
          simp only [List.length_cons] at hs1 hs2
          rw [ih f2 (decide (c = '\n')) t (by omega) (by omega)]
        | some gr =>
          obtain ⟨g, remainder⟩ := gr
          have hmm : sourceMatchAt (c :: t) = some (g, remainder) := by
            cases flag with
            | false => simp at hm
            | true => simpa using hm
          have hlt := sourceMatchAt_rem_lt hmm
          simp only [List.length_cons] at hs1 hs2
          simp only [List.length_cons] at hlt
          dsimp only
          cases fs.lookup (stripQuotes (stripWS g)) with
          | none => rfl
          | some content =>
            rw [ih f2 false remainder (by omega) (by omega)]

theorem sourceSubAux_nil (fs : List (Str × Str)) :
    ∀ (f : Nat) (flag : Bool), sourceSubAux fs f flag [] = Except.ok [] := by
  intro f flag
  cases f <;> rfl

theorem sourceSub_cons_true (fs : List (Str × Str)) (c : Char) (t : Str) :
    sourceSubAux fs (c :: t).length true (c :: t)
      = match sourceMatchAt (c :: t) with
        | some (g, rem) =>
          match fs.lookup (stripQuotes (stripWS g)) with
          | none => Except.error (stripQuotes (stripWS g))
          | some content =>
            (sourceSubAux fs rem.length false rem).map (fun rest => content ++ rest)
        | none =>
          (sourceSubAux fs t.length (decide (c = '\n')) t).map
            (fun rest => c :: rest) := by
  rw [List.length_cons]
  simp only [sourceSubAux]
  rw [if_pos trivial]
  cases hm : sourceMatchAt (c :: t) with
  | none => rfl
  | some gr =>
    obtain ⟨g, rem⟩ := gr
    dsimp only
    have hlt := sourceMatchAt_rem_lt hm
    simp only [List.length_cons] at hlt
    cases fs.lookup (stripQuotes (stripWS g)) with
    | none => rfl
    | some content =>
      rw [sourceSubAux_fuel_irrel fs t.length rem.length false rem (by omega)
        (le_refl _)]

theorem sourceSub_cons_false (fs : List (Str × Str)) (c : Char) (t : Str) :
    sourceSubAux fs (c :: t).length false (c :: t)
      = (sourceSubAux fs t.length (decide (c = '\n')) t).map
          (fun rest => c :: rest) := by
  rw [List.length_cons]
  simp only [sourceSubAux]
  rfl

theorem sourceSub_copy_last (fs : List (Str × Str)) :
    ∀ l : Str, '\n' ∉ l → sourceSubAux fs l.length false l = Except.ok l := by
  intro l
  induction l with
  | nil => intro _; exact sourceSubAux_nil fs 0 false
  | cons c l' ih =>
    intro hnl
    have hcne : ¬ c = '\n' := fun h => hnl (by simp [h])
    rw [sourceSub_cons_false, decide_eq_false hcne,
      ih (fun h => hnl (List.mem_cons_of_mem c h))]
    rfl

theorem sourceSub_copy_line (fs : List (Str × Str)) :
    ∀ (l tail : Str), '\n' ∉ l →
      sourceSubAux fs (l ++ '\n' :: tail).length false (l ++ '\n' :: tail)
        = (sourceSubAux fs tail.length true tail).map (fun r => l ++ '\n' :: r) := by
  intro l
  induction l with
  | nil =>
    intro tail _
    simp only [List.nil_append]
    rw [sourceSub_cons_false]
    have hd : decide ('\n' = '\n') = true := by decide
    rw [hd]
  | cons c l' ih =>
    intro tail hnl
    have hcne : ¬ c = '\n' := fun h => hnl (by simp [h])
    rw [List.cons_append, sourceSub_cons_false, decide_eq_false hcne,
      ih tail (fun hx => hnl (List.mem_cons_of_mem c hx))]
    cases sourceSubAux fs tail.length true tail <;> simp [Except.map]

theorem take_append_newline_ne (l : Str) (rest : Str)
    (h6 : l.take 6 ≠ "Source".toList) :
    (l ++ '\n' :: rest).take 6 ≠ "Source".toList := by
  by_cases hlen : 6 ≤ l.length
  · rw [List.take_append_eq_append_take]
    have h0 : 6 - l.length = 0 := by omega
    rw [h0, List.take_zero, List.append_nil]
    exact h6
  · intro hcontra
    have hmem : '\n' ∈ (l ++ '\n' :: rest).take 6 := by
      rw [List.take_append_eq_append_take, List.take_of_length_le (by omega)]
      refine List.mem_append_right _ ?_
      have h1 : 1 ≤ 6 - l.length := by omega
      obtain ⟨m, hm⟩ : ∃ m, 6 - l.length = m + 1 := ⟨6 - l.length - 1, by omega⟩
      rw [hm, List.take_succ_cons]
      exact List.mem_cons_self _ _
    rw [hcontra] at hmem
    exact absurd hmem (by decide)

theorem sourceArg_none_notSource (l : Str) (h6 : l.take 6 ≠ "Source".toList) :
    sourceArg l = none := by
  simp only [sourceArg, if_neg h6]

theorem sourceArg_none_noSpace (l : Str) (h6 : l.take 6 = "Source".toList)
    (hw : ((l.drop 6).takeWhile isPySpace).length = 0) :
    sourceArg l = none := by
  simp only [sourceArg, if_pos h6, if_pos hw]

theorem sourceArg_eq_dropWhile (l : Str) (h6 : l.take 6 = "Source".toList)
    (hw : ((l.drop 6).takeWhile isPySpace).length ≠ 0)
    (hex : ∃ c ∈ l.drop 6, isPySpace c = false) :
    sourceArg l
      = some (stripQuotes (stripWS ((l.drop 6).dropWhile isPySpace))) := by
  have hlt : ¬ (l.drop 6).length ≤ ((l.drop 6).takeWhile isPySpace).length := by
    intro hle
    have hpre := List.takeWhile_prefix (l := l.drop 6) isPySpace
    have hlen := length_takeWhile_le' isPySpace (l.drop 6)
    have heq : (l.drop 6).takeWhile isPySpace = l.drop 6 :=
      hpre.eq_of_length (by omega)
    obtain ⟨c, hc, hcw⟩ := hex
    rw [← heq] at hc
    exact absurd (List.mem_takeWhile_imp hc) (by simp [hcw])
  simp only [sourceArg, if_pos h6, if_neg hw, if_neg hlt]
  rw [drop_length_takeWhile]

theorem sourceMatchAt_none_notSource (l : Str) (rest : Str)
    (h6 : l.take 6 ≠ "Source".toList) :
    sourceMatchAt (l ++ '\n' :: rest) = none ∧ sourceMatchAt l = none := by
  constructor
  · simp only [sourceMatchAt, if_neg (take_append_newline_ne l rest h6)]
  · simp only [sourceMatchAt, if_neg h6]

theorem take_six_append (l x : Str) (h : 6 ≤ l.length) :
    (l ++ x).take 6 = l.take 6 := by
  rw [List.take_append_eq_append_take]
  have h0 : 6 - l.length = 0 := by omega
  rw [h0, List.take_zero, List.append_nil]

theorem drop_six_append (l x : Str) (h : 6 ≤ l.length) :
    (l ++ x).drop 6 = l.drop 6 ++ x := by
  rw [List.drop_append_eq_append_drop]
  have h0 : 6 - l.length = 0 := by omega
  rw [h0, List.drop_zero]

theorem sourceMatchAt_none_noSpace (l rest : Str)
    (h6 : l.take 6 = "Source".toList)
    (hw : ((l.drop 6).takeWhile isPySpace).length = 0)
    (hex : ∃ c ∈ l.drop 6, isPySpace c = false) :
    sourceMatchAt (l ++ '\n' :: rest) = none ∧ sourceMatchAt l = none := by
  have h6len : 6 ≤ l.length := take_six_length h6
  obtain ⟨c0, r', hr0⟩ : ∃ c0 r', l.drop 6 = c0 :: r' := by
    cases hd : l.drop 6 with
    | nil =>
      obtain ⟨c, hc, -⟩ := hex
      rw [hd] at hc
      exact absurd hc (List.not_mem_nil c)
    | cons c0 r' => exact ⟨c0, r', rfl⟩
  have hc0 : isPySpace c0 = false := by
    by_contra hcon
    have hc0t : isPySpace c0 = true := by
      cases h : isPySpace c0 with
      | true => rfl
      | false => exact absurd h hcon
    rw [hr0, List.takeWhile_cons, if_pos hc0t] at hw
    simp at hw
  constructor
  · have htake : (l ++ '\n' :: rest).take 6 = "Source".toList := by
      rw [take_six_append l _ h6len, h6]
    have hdrop : (l ++ '\n' :: rest).drop 6 = c0 :: (r' ++ '\n' :: rest) := by
      rw [drop_six_append l _ h6len, hr0, List.cons_append]
    simp only [sourceMatchAt, if_pos htake, hdrop, List.takeWhile_cons,
      hc0, Bool.false_eq_true, if_false, List.length_nil]
    rw [if_pos trivial]
  · simp only [sourceMatchAt, if_pos h6, if_pos hw]

theorem sourceMatchAt_line (l T : Str) (hnl : '\n' ∉ l)
    (h6 : l.take 6 = "Source".toList)
    (hw : ((l.drop 6).takeWhile isPySpace).length ≠ 0)
    (hex : ∃ c ∈ l.drop 6, isPySpace c = false) :
    sourceMatchAt (l ++ '\n' :: T)
      = some ((l.drop 6).dropWhile isPySpace, '\n' :: T) := by
  have h6len : 6 ≤ l.length := take_six_length h6
  have htake : (l ++ '\n' :: T).take 6 = "Source".toList := by
    rw [take_six_append l _ h6len, h6]
  have hdrop : (l ++ '\n' :: T).drop 6 = l.drop 6 ++ '\n' :: T :=
    drop_six_append l _ h6len
  have hwfull : (l.drop 6 ++ '\n' :: T).takeWhile isPySpace
      = (l.drop 6).takeWhile isPySpace :=
    takeWhile_append_stop (l.drop 6) _ hex
  have hwlen : ((l.drop 6).takeWhile isPySpace).length ≤ (l.drop 6).length :=
    length_takeWhile_le' isPySpace (l.drop 6)
  have hremfull : (l.drop 6 ++ '\n' :: T).drop
      ((l.drop 6).takeWhile isPySpace).length
      = (l.drop 6).dropWhile isPySpace ++ '\n' :: T := by
    rw [List.drop_append_eq_append_drop]
    have h0 : ((l.drop 6).takeWhile isPySpace).length - (l.drop 6).length = 0 := by
      omega
    rw [h0, List.drop_zero, drop_length_takeWhile]
  have hmsub : ∀ c ∈ (l.drop 6).dropWhile isPySpace, c ∈ l := by
    intro c hc
    exact List.mem_of_mem_drop
      ((List.dropWhile_suffix (l := l.drop 6) isPySpace).subset hc : c ∈ l.drop 6)
  have hmne : (l.drop 6).dropWhile isPySpace ≠ [] := by
    intro hcon
    obtain ⟨c, hc, hcw⟩ := hex
    have := List.dropWhile_eq_nil_iff.mp hcon c hc
    simp [hcw] at this
  have hg : ((l.drop 6).dropWhile isPySpace ++ '\n' :: T).takeWhile
      (fun c => decide (¬ c = '\n'))
      = (l.drop 6).dropWhile isPySpace := by
    rw [takeWhile_append_all]
    · rw [List.takeWhile_cons]
      simp
    · intro c hc
      have : c ≠ '\n' := fun hcc => hnl (hcc ▸ hmsub c hc)
      simp [this]
  simp only [sourceMatchAt, if_pos htake, hdrop, hwfull, if_neg hw, hremfull]
  rw [if_pos (by simp : ((l.drop 6).dropWhile isPySpace ++ '\n' :: T) ≠ [])]
  rw [hg]
  congr 1
  rw [List.drop_left]

theorem sourceMatchAt_last (l : Str) (hnl : '\n' ∉ l)
    (h6 : l.take 6 = "Source".toList)
    (hw : ((l.drop 6).takeWhile isPySpace).length ≠ 0)
    (hex : ∃ c ∈ l.drop 6, isPySpace c = false) :
    sourceMatchAt l = some ((l.drop 6).dropWhile isPySpace, []) := by
  have hmsub : ∀ c ∈ (l.drop 6).dropWhile isPySpace, c ∈ l := by
    intro c hc
    exact List.mem_of_mem_drop
      ((List.dropWhile_suffix (l := l.drop 6) isPySpace).subset hc : c ∈ l.drop 6)
  have hmne : (l.drop 6).dropWhile isPySpace ≠ [] := by
    intro hcon
    obtain ⟨c, hc, hcw⟩ := hex
    have := List.dropWhile_eq_nil_iff.mp hcon c hc
    simp [hcw] at this
  have hg : ((l.drop 6).dropWhile isPySpace).takeWhile
      (fun c => decide (¬ c = '\n')) = (l.drop 6).dropWhile isPySpace := by
    apply takeWhile_eq_self
    intro c hc
    have : c ≠ '\n' := fun hcc => hnl (hcc ▸ hmsub c hc)
    simp [this]
  simp only [sourceMatchAt, if_pos h6, if_neg hw, drop_length_takeWhile]
  rw [if_pos hmne, hg]
  have hd : ((l.drop 6).dropWhile isPySpace).dropWhile
      (fun x => decide (x ≠ '\n')) = [] := by
    rw [List.dropWhile_eq_nil_iff]
    intro x hx
    have hxne : x ≠ '\n' := fun hcc => hnl (hcc ▸ hmsub x hx)
    simp [hxne]
  rw [hd]

theorem sourceSub_copy_true (fs : List (Str × Str)) (l : Str) (hnl : '\n' ∉ l)
    (hm : sourceMatchAt l = none) :
    sourceSubAux fs l.length true l = Except.ok l := by
  cases l with
  | nil => exact sourceSubAux_nil fs 0 true
  | cons c t =>
    rw [sourceSub_cons_true, hm]
    have hcne : ¬ c = '\n' := fun h => hnl (by simp [h])
    rw [decide_eq_false hcne,
      sourceSub_copy_last fs t (fun h => hnl (List.mem_cons_of_mem c h))]
    rfl

theorem sourceSub_copyline_true (fs : List (Str × Str)) (l T : Str)
    (hnl : '\n' ∉ l) (hm : sourceMatchAt (l ++ '\n' :: T) = none) :
    sourceSubAux fs (l ++ '\n' :: T).length true (l ++ '\n' :: T)
      = (sourceSubAux fs T.length true T).map (fun r => l ++ '\n' :: r) := by
  cases l with
  | nil =>
    simp only [List.nil_append] at hm ⊢
    rw [sourceSub_cons_true, hm]
    have hd : decide ('\n' = '\n') = true := by decide
    rw [hd]
  | cons c l' =>
    rw [List.cons_append] at hm ⊢
    rw [sourceSub_cons_true, hm]
    have hcne : ¬ c = '\n' := fun h => hnl (by simp [h])
    rw [decide_eq_false hcne,
      sourceSub_copy_line fs l' T (fun hx => hnl (List.mem_cons_of_mem c hx))]
    cases sourceSubAux fs T.length true T <;> simp [Except.map]

theorem inlineLinesGo_length (fs : List (Str × Str)) :
    ∀ (ls rs : List Str), inlineLinesGo fs ls = Except.ok rs →
      rs.length = ls.length := by
  intro ls
  induction ls with
  | nil =>
    intro rs h
    simp only [inlineLinesGo, Except.ok.injEq] at h
    simp [← h]
  | cons l rest ih =>
    intro rs h
    simp only [inlineLinesGo] at h
    cases hsa : sourceArg l with
    | some p =>
      rw [hsa] at h
      dsimp only at h
      cases hlk : fs.lookup p with
      | none => rw [hlk] at h; exact absurd h (by simp)
      | some content =>
        rw [hlk] at h
        cases hrest : inlineLinesGo fs rest with
        | error e => rw [hrest] at h; exact absurd h (by simp [Except.map])
        | ok rs' =>
          rw [hrest] at h
          simp only [Except.map, Except.ok.injEq] at h
          rw [← h, List.length_cons, List.length_cons, ih rs' hrest]
    | none =>
      rw [hsa] at h
      dsimp only at h
      cases hrest : inlineLinesGo fs rest with
      | error e => rw [hrest] at h; exact absurd h (by simp [Except.map])
      | ok rs' =>
        rw [hrest] at h
        simp only [Except.map, Except.ok.injEq] at h
        rw [← h, List.length_cons, List.length_cons, ih rs' hrest]

theorem inlineLinesGo_cons (fs : List (Str × Str)) (l : Str) (rest : List Str) :
    inlineLinesGo fs (l :: rest)
      = match sourceArg l with
        | some p =>
          match fs.lookup p with
          | none => Except.error p
          | some content => (inlineLinesGo fs rest).map (fun r => content :: r)
        | none => (inlineLinesGo fs rest).map (fun r => l :: r) := rfl

theorem sourceSub_eq_inline_aux (fs : List (Str × Str)) :
    ∀ ls : List Str,
      (∀ l ∈ ls, '\n' ∉ l) →
      (∀ l ∈ ls, l.take 6 = "Source".toList →
        ∃ c ∈ l.drop 6, isPySpace c = false) →
      sourceSubAux fs (joinLines ls).length true (joinLines ls)
        = (inlineLinesGo fs ls).map joinLines := by
  intro ls
  induction ls with
  | nil =>
    intro _ _
    rw [joinLines_nil, sourceSubAux_nil]
    rfl
  | cons l rest ih =>
    intro hnl hex
    have hnl_l : '\n' ∉ l := hnl l (List.mem_cons_self l rest)
    have hnl_r : ∀ x ∈ rest, '\n' ∉ x :=
      fun x hx => hnl x (List.mem_cons_of_mem l hx)
    have hex_r : ∀ x ∈ rest, x.take 6 = "Source".toList →
        ∃ c ∈ x.drop 6, isPySpace c = false :=
      fun x hx h => hex x (List.mem_cons_of_mem l hx) h
    cases rest with
    | nil =>
      rw [joinLines_single]
      by_cases h6 : l.take 6 = "Source".toList
      · have hex_l := hex l (List.mem_cons_self l []) h6
        by_cases hw : ((l.drop 6).takeWhile isPySpace).length = 0
        · have hsa : sourceArg l = none := sourceArg_none_noSpace l h6 hw
          have hm : sourceMatchAt l = none :=
            (sourceMatchAt_none_noSpace l [] h6 hw hex_l).2
          rw [sourceSub_copy_true fs l hnl_l hm, inlineLinesGo_cons, hsa]
          dsimp only [inlineLinesGo]
          simp [Except.map, joinLines_single]
        · have hm := sourceMatchAt_last l hnl_l h6 hw hex_l
          have hsa := sourceArg_eq_dropWhile l h6 hw hex_l
          obtain ⟨c, t, rfl⟩ : ∃ c t, l = c :: t := by
            cases l with
            | nil => exact absurd h6 (by decide)
            | cons c t => exact ⟨c, t, rfl⟩
          rw [sourceSub_cons_true, hm, inlineLinesGo_cons, hsa]
          dsimp only [inlineLinesGo]
          cases hlk : fs.lookup
              (stripQuotes (stripWS (((c :: t).drop 6).dropWhile isPySpace))) with
          | none => simp [Except.map]
          | some content =>
            rw [sourceSubAux_nil]
            simp [Except.map, joinLines_single]
      · have hsa := sourceArg_none_notSource l h6
        have hm := (sourceMatchAt_none_notSource l [] h6).2
        rw [sourceSub_copy_true fs l hnl_l hm, inlineLinesGo_cons, hsa]
        dsimp only [inlineLinesGo]
        simp [Except.map, joinLines_single]
    | cons r1 rest' =>
      rw [joinLines_cons₂]
      by_cases h6 : l.take 6 = "Source".toList
      · have hex_l := hex l (List.mem_cons_self l (r1 :: rest')) h6
        by_cases hw : ((l.drop 6).takeWhile isPySpace).length = 0
        · have hsa : sourceArg l = none := sourceArg_none_noSpace l h6 hw
          have hm : sourceMatchAt (l ++ '\n' :: joinLines (r1 :: rest')) = none :=
            (sourceMatchAt_none_noSpace l (joinLines (r1 :: rest')) h6 hw hex_l).1
          rw [sourceSub_copyline_true fs l _ hnl_l hm, ih hnl_r hex_r,
            inlineLinesGo_cons fs l (r1 :: rest'), hsa]
          cases hrest : inlineLinesGo fs (r1 :: rest') with
          | error e => simp [Except.map]
          | ok rs =>
            have hrs : rs ≠ [] := by
              have hlen := inlineLinesGo_length fs _ rs hrest
              intro hcon
              rw [hcon] at hlen
              simp at hlen
            simp only [Except.map]
            rw [joinLines_cons l rs hrs]
        · have hm := sourceMatchAt_line l (joinLines (r1 :: rest')) hnl_l h6 hw hex_l
          have hsa := sourceArg_eq_dropWhile l h6 hw hex_l
          obtain ⟨c, t, rfl⟩ : ∃ c t, l = c :: t := by
            cases l with
            | nil => exact absurd h6 (by decide)
            | cons c t => exact ⟨c, t, rfl⟩
          rw [List.cons_append] at hm ⊢
          rw [sourceSub_cons_true, hm, inlineLinesGo_cons, hsa]
          dsimp only
          cases hlk : fs.lookup
              (stripQuotes (stripWS (((c :: t).drop 6).dropWhile isPySpace))) with
          | none => simp [Except.map]
          | some content =>
            rw [sourceSub_cons_false]
            have hd : decide ('\n' = '\n') = true := by decide
            rw [hd, ih hnl_r hex_r]
            cases hrest : inlineLinesGo fs (r1 :: rest') with
            | error e => simp [Except.map]
            | ok rs =>
              have hrs : rs ≠ [] := by
                have hlen := inlineLinesGo_length fs _ rs hrest
                intro hcon
                rw [hcon] at hlen
                simp at hlen
              simp only [Except.map]
              rw [joinLines_cons content rs hrs]
      · have hsa := sourceArg_none_notSource l h6
        have hm := (sourceMatchAt_none_notSource l (joinLines (r1 :: rest')) h6).1
        rw [sourceSub_copyline_true fs l _ hnl_l hm, ih hnl_r hex_r,
          inlineLinesGo_cons fs l (r1 :: rest'), hsa]
        cases hrest : inlineLinesGo fs (r1 :: rest') with
        | error e => simp [Except.map]
        | ok rs =>
          have hrs : rs ≠ [] := by
            have hlen := inlineLinesGo_length fs _ rs hrest
            intro hcon
            rw [hcon] at hlen
            simp at hlen
          simp only [Except.map]
          rw [joinLines_cons l rs hrs]

/-- C7 counterexample: the `Source` pass is not line-local.  In the template
`Source\nSource foo`, the second line is literally of the form
`Source <path>` with path `foo`, yet the program does not replace it with the
contents of file `foo`: the regex match starting at the bare `Source` line
consumes it as path text (`\s+` crosses the newline), so `render_tape` raises
on the missing path `Source foo`, while the specification's line-by-line
description would inline file `foo` and keep the bare `Source` line. -/
theorem renderTape_cross_line_counterexample :
    renderTape (some (lit "Source\nSource foo")) [(lit "foo", lit "F")] []
      = RenderResult.sourceError (lit "Source foo")
    ∧ renderTapeSpec (some (lit "Source\nSource foo")) [(lit "foo", lit "F")] []
      = RenderResult.rendered (lit "Source\nF") := by
  constructor <;> decide

/-- C7 amended: `render_tape` performs a single-pass substitution — the
`MULTILINE` regex pass inlining `Source` directives first, the sequential
literal `\x7b\x7bVAR\x7d\x7d` replacements only afterwards — but the regex pass is
line-local only because `\s+` never crosses a newline when the path is on the
same line: for every template in which each line beginning with `Source` has
some non-whitespace character after it, every line of the form
`Source <path>` is replaced by the contents of the file at the stripped path
and all other lines are kept, exactly as the specification describes. -/
theorem renderTape_line_local (s : Str) (fs : List (Str × Str))
    (repls : List (Str × Str))
    (hH : ∀ l ∈ splitLines s, l.take 6 = lit "Source" →
        ∃ c ∈ l.drop 6, isPySpace c = false) :
    renderTape (some s) fs repls = renderTapeSpec (some s) fs repls := by
  have hnl := splitLines_no_newline s
  have hmain := sourceSub_eq_inline_aux fs (splitLines s) hnl hH
  rw [joinLines_splitLines] at hmain
  have hss : sourceSub fs s = inlineSources fs s := hmain
  rw [renderTapeSpec_eq_inline]
  show (match sourceSub fs s with
        | .error p => RenderResult.sourceError p
        | .ok inlined => RenderResult.rendered (substTokens repls inlined))
      = (match inlineSources fs s with
        | .error p => RenderResult.sourceError p
        | .ok inlined => RenderResult.rendered (substTokens repls inlined))
  rw [hss]

theorem renderTape_line_local_witness :
    renderTape (some (lit "Source \x22demo.tape\x22\nType hello"))
        [(lit "demo.tape", lit "Show")] []
      = renderTapeSpec (some (lit "Source \x22demo.tape\x22\nType hello"))
        [(lit "demo.tape", lit "Show")] [] :=
  renderTape_line_local (lit "Source \x22demo.tape\x22\nType hello")
    [(lit "demo.tape", lit "Show")] [] (by decide)
